import Mathlib

/-!
A verification development for `excavate.py`, a tool that collects untracked
build artifacts from a git working directory into gzip-compressed tarballs
and prunes old archives from a save directory.

The embedding models file names and textual data as `List Char`.  The save
directory is modelled as the list of file names it contains (the directory
prefix that the code joins onto every name is factored out: the code only
ever compares full paths that share the same `save_dir` prefix, and the
filename-parsing regex reads the trailing `.tar.gz`-shaped portion of the
path, which lies inside the name component for any save directory that does
not itself contain a `_<digits>.tar.gz` motif).  Characters are treated as
ASCII for the character classes `\w`, `\d` and `\s`.  Python exceptions are
modelled with `Option`/`Except`: `none`/`.error` means the run aborts.
-/

namespace Excavate

/-- Python `\s` (ASCII): the whitespace class used by `re` and `str.strip`. -/
def isPySpace (c : Char) : Bool :=
  c = ' ' || c = '\t' || c = '\n' || c = '\x0d' || c = '\x0b' || c = '\x0c'

/-- Python `\w` (ASCII): letters, digits and the underscore. -/
def isWordChar (c : Char) : Bool :=
  ('a' ≤ c && c ≤ 'z') || ('A' ≤ c && c ≤ 'Z') || ('0' ≤ c && c ≤ '9') || c = '_'

/-- Python `\d` (ASCII): decimal digits. -/
def isDigitChar (c : Char) : Bool :=
  '0' ≤ c && c ≤ '9'

/-- ASCII lowercasing, as used by `re.IGNORECASE`. -/
def lowerChar (c : Char) : Char :=
  if 'A' ≤ c && c ≤ 'Z' then Char.ofNat (c.toNat + 32) else c

/-- Case-insensitive literal match of `pat` at the head of `s`. -/
def ciHead : List Char → List Char → Bool
  | [], _ => true
  | _ :: _, [] => false
  | p :: ps, c :: cs => (lowerChar p = lowerChar c) && ciHead ps cs

/-- Python `str.strip()`: drop whitespace from both ends. -/
def pyStrip (s : List Char) : List Char :=
  ((s.dropWhile isPySpace).reverse.dropWhile isPySpace).reverse

/-- `os.path.join` for POSIX paths, as used with a directory and a name. -/
def pathJoin (a b : List Char) : List Char :=
  if b.head? = some '/' then b
  else if a = [] then b
  else if a.getLast? = some '/' then a ++ b
  else a ++ '/' :: b

/-! ## Archive naming (`_short_ref`, `_generate_archive_name`) -/

/-- `_short_ref(ref, length=8)`: the first 8 characters of the ref. -/
def shortRef (ref : List Char) : List Char :=
  ref.take 8

/-- The literal placeholder `'<unknown>'` used for absent CI variables. -/
def unknownStr : List Char := "<unknown>".data

/-- The literal suffix `.tar.gz` of every archive name. -/
def tarGzSuffix : List Char := ".tar.gz".data

/-- `os.path.basename`: the part of a path after its last separator. -/
def basename (p : List Char) : List Char :=
  (p.reverse.takeWhile (fun c => c ≠ '/')).reverse

/-- The format string `'{proj_name}_{ref_name}_{ref}_{build_id}.tar.gz'`
with `ref` truncated through `_short_ref`, exactly as
`_generate_archive_name` builds it once its four fields are resolved. -/
def formatName (projName refName ref buildId : List Char) : List Char :=
  projName ++ '_' :: refName ++ '_' :: shortRef ref ++ '_' :: buildId ++ tarGzSuffix

/-- The CI environment variables `_generate_archive_name` reads:
`CI_PROJECT_DIR`, `CI_BUILD_REF_NAME`, `CI_BUILD_REF`, `CI_BUILD_ID`.
`none` models an unset variable. -/
structure CIEnv where
  ciProjectDir : Option (List Char)
  ciBuildRefName : Option (List Char)
  ciBuildRef : Option (List Char)
  ciBuildId : Option (List Char)

/-- `_generate_archive_name(proj_name, ref_name, ref, build_id)`: each field
defaults from the environment (the project name through `os.path.basename`)
when the caller passes `None`. -/
def generateArchiveName (env : CIEnv) (projName refName ref buildId : Option (List Char)) :
    List Char :=
  formatName
    (projName.getD (basename (env.ciProjectDir.getD unknownStr)))
    (refName.getD (env.ciBuildRefName.getD unknownStr))
    (ref.getD (env.ciBuildRef.getD unknownStr))
    (buildId.getD (env.ciBuildId.getD unknownStr))

/-- The name of the archive the current run produces: the generated name with
no explicit overrides, i.e. all four fields resolved from the environment. -/
def currentName (env : CIEnv) : List Char :=
  generateArchiveName env none none none none

/-- The archive path written by `_store` (line 163):
`os.path.join(save_dir, _generate_archive_name(logger))`. -/
def storeArchivePath (env : CIEnv) (saveDir : List Char) : List Char :=
  pathJoin saveDir (generateArchiveName env none none none none)

/-- The current-archive path `_cleanup` recomputes (line 103):
`os.path.join(save_dir, _generate_archive_name(logger))`. -/
def cleanupCurrentArc (env : CIEnv) (saveDir : List Char) : List Char :=
  pathJoin saveDir (generateArchiveName env none none none none)

/-! ## Glob matching

`_cleanup` looks up saved archives with `glob.iglob` on the patterns
`*_*_{short_commit}_*.tar.gz` and `*_*_*_*.tar.gz` (built by calling
`_generate_archive_name` with literal `'*'` fields).  The patterns contain
only literal characters and `*`, so a small fnmatch suffices.  `glob` skips
names that start with a dot unless the pattern itself starts with one. -/

/-- Fuel-driven fnmatch core for patterns made of literals and `*`.
The fuel only serves structural recursion; `pat.length + s.length + 1`
always suffices. -/
def fnmatchAux : Nat → List Char → List Char → Bool
  | 0, _, _ => false
  | _ + 1, [], [] => true
  | _ + 1, [], _ :: _ => false
  | fuel + 1, p :: ps, [] => p = '*' && fnmatchAux fuel ps []
  | fuel + 1, p :: ps, c :: s =>
    if p = '*' then fnmatchAux fuel ps (c :: s) || fnmatchAux fuel (p :: ps) s
    else p = c && fnmatchAux fuel ps s

/-- `fnmatch` for a literal-and-`*` pattern. -/
def fnmatch (pat s : List Char) : Bool :=
  fnmatchAux (pat.length + s.length + 1) pat s

/-- One name matching a glob pattern inside a directory: fnmatch plus the
hidden-file rule (a leading-dot name is only matched by a leading-dot
pattern). -/
def globMatch (pat name : List Char) : Bool :=
  (match name, pat with
    | '.' :: _, '.' :: _ => true
    | '.' :: _, _ => false
    | _, _ => true) && fnmatch pat name

/-- The per-commit glob pattern of `_cleanup` line 117:
`_generate_archive_name(proj_name='*', ref_name='*', ref=_short_ref(commit),
build_id='*')`. -/
def commitPattern (commit : List Char) : List Char :=
  formatName ['*'] ['*'] (shortRef commit) ['*']

/-- The all-archives glob pattern of `_cleanup` line 129:
`_generate_archive_name(proj_name='*', ref_name='*', ref='*', build_id='*')`. -/
def allPattern : List Char :=
  formatName ['*'] ['*'] ['*'] ['*']

/-! ## The filename regex

`commit_and_build_id_regex = r'^.*_(?P<commit>[^_]+)_(?P<id>\d+)\.tar\.gz'`,
used through `re.match`.  With a greedy `.*` the successful parse is the one
at the rightmost underscore whose remainder decomposes as a nonempty
underscore-free commit, an underscore, a nonempty digit run, and the literal
`.tar.gz`; within that position the commit and digit runs are forced to be
the maximal ones. -/

/-- Attempt the `_(?P<commit>[^_]+)_(?P<id>\d+)\.tar\.gz` tail right after an
underscore: `rest` is the text following that underscore. -/
def reTail (rest : List Char) : Option (List Char × List Char) :=
  let c := rest.takeWhile (fun x => x ≠ '_')
  if c = [] then none
  else
    match rest.dropWhile (fun x => x ≠ '_') with
    | '_' :: r3 =>
        let d := r3.takeWhile isDigitChar
        if d = [] then none
        else if tarGzSuffix.isPrefixOf (r3.drop d.length) then some (c, d) else none
    | _ => none

/-- `commit_and_build_id_regex.match(archive)`: `some (commit, digits)` when
the regex matches, taking the rightmost viable underscore (the greedy `.*`). -/
def reMatch : List Char → Option (List Char × List Char)
  | [] => none
  | ch :: rest =>
    match reMatch rest with
    | some r => some r
    | none => if ch = '_' then reTail rest else none

/-- Python 2 `int(s, 0)` restricted to nonempty digit strings (the regex
group `\d+`): plain decimal without a leading zero, C-style octal with one;
`none` models the `ValueError` a non-octal digit after a leading zero
raises. -/
def intBase0 (s : List Char) : Option Nat :=
  if s = [] then none
  else if s.head? = some '0' && s.length != 1 then
    if s.all (fun c => '0' ≤ c && c ≤ '7') then
      some (s.foldl (fun a c => a * 8 + (c.toNat - 48)) 0)
    else none
  else some (s.foldl (fun a c => a * 10 + (c.toNat - 48)) 0)

/-- `get_build_id(archive)`: the parsed build id, `0` when the regex does not
match; `none` models the `ValueError` escaping from `int(…, 0)`. -/
def getBuildId (archive : List Char) : Option Nat :=
  match reMatch archive with
  | some (_, d) => intBase0 d
  | none => some 0

/-- `get_commit_id(archive)`: the embedded commit, `''` when the regex does
not match. -/
def getCommitId (archive : List Char) : List Char :=
  match reMatch archive with
  | some (c, _) => c
  | none => []

/-! ## Latest commits (`git for-each-ref` parsing) -/

/-- The commits parsed from `git for-each-ref` output with
`re.finditer('^(?P<commit>\w+)', output, re.MULTILINE)` and collected into a
set: the maximal leading word-character run of every line that has one,
deduplicated. -/
def latestCommits (output : List Char) : List (List Char) :=
  ((List.splitOn '\n' output).filterMap fun l =>
    let w := l.takeWhile isWordChar
    if w = [] then none else some w).dedup

/-- `is_latest_commit(commit)`: does the parsed commit equal the truncation
of some latest commit? -/
def isLatestCommit (latest : List (List Char)) (commit : List Char) : Bool :=
  latest.any (fun l => commit = shortRef l)

/-! ## Sorting by build id

`sorted(…, key=get_build_id, reverse=True)` is a stable sort on the
descending build ids (CPython computes every key first, so a `ValueError`
from any key aborts the call).  A stable insertion sort produces the same
list as any other stable sort for the same total preorder. -/

/-- Stable insert for insertion sort: `x` goes before the first element `y`
with `le x y`. -/
def stableInsert (le : α → α → Bool) (x : α) : List α → List α
  | [] => [x]
  | y :: ys => if le x y then x :: y :: ys else y :: stableInsert le x ys

/-- Stable insertion sort. -/
def stableSort (le : α → α → Bool) : List α → List α
  | [] => []
  | x :: xs => stableInsert le x (stableSort le xs)

/-- Keys-descending order on (name, build id) pairs; ties keep input order,
matching `sorted(…, reverse=True)`. -/
def idDescLe (x y : List Char × Nat) : Bool :=
  y.2 ≤ x.2

/-- Pair every archive with its `get_build_id` key, left to right, as
CPython's `sorted` computes keys; `none` when some key computation raises. -/
def keyArchives : List (List Char) → Option (List (List Char × Nat))
  | [] => some []
  | a :: as => do
    let k ← getBuildId a
    let ks ← keyArchives as
    some ((a, k) :: ks)

/-- `sorted(archives, key=get_build_id, reverse=True)`: `none` when some
key computation raises. -/
def sortByBuildIdDesc (archives : List (List Char)) : Option (List (List Char)) :=
  (keyArchives archives).map fun keyed => (stableSort idDescLe keyed).map Prod.fst

/-! ## The cleanup passes

The save directory is its list of file names (`listing`); a cleanup state
also carries the log of names reported as `Deleting …`, in order.  Dry-run
mode logs without removing. -/

/-- Delete a batch of names from a listing, one `os.remove` per name. -/
def removeAll (listing toDelete : List (List Char)) : List (List Char) :=
  toDelete.foldl (fun l a => l.erase a) listing

/-- One iteration of the per-commit loop (lines 113-126): glob the archives
for the commit's truncated hash, sort them by descending build id, and
delete every one beyond `cache_size`, except the current archive. -/
def perCommitStep (current : List Char) (cacheSize : Nat) (dryRun : Bool)
    (st : List (List Char) × List (List Char)) (commit : List Char) :
    Option (List (List Char) × List (List Char)) := do
  let archives := st.1.filter (fun f => globMatch (commitPattern commit) f)
  let sorted ← sortByBuildIdDesc archives
  let toDelete := (sorted.drop cacheSize).filter (fun a => a ≠ current)
  some (if dryRun then st.1 else removeAll st.1 toDelete, st.2 ++ toDelete)

/-- The whole per-commit retention loop, one `perCommitStep` per latest
commit in order. -/
def perCommitPass (current : List Char) (latest : List (List Char)) (cacheSize : Nat)
    (dryRun : Bool) (st : List (List Char) × List (List Char)) :
    Option (List (List Char) × List (List Char)) :=
  match latest with
  | [] => some st
  | c :: cs => do
    let st' ← perCommitStep current cacheSize dryRun st c
    perCommitPass current cs cacheSize dryRun st'

/-- Lexicographic order on names, the order `sorted` gives the orphan-sweep
glob results (the shared directory prefix does not affect it). -/
def lexLe : List Char → List Char → Bool
  | [], _ => true
  | _ :: _, [] => false
  | a :: as, b :: bs => a < b || (a = b && lexLe as bs)

/-- The orphan sweep (lines 128-153): enumerate all `*_*_*_*.tar.gz` names,
and delete each one that is not the current archive and whose embedded
commit is no latest commit's truncation. -/
def orphanSweep (current : List Char) (latest : List (List Char)) (dryRun : Bool)
    (st : List (List Char) × List (List Char)) :
    List (List Char) × List (List Char) :=
  let archives := stableSort lexLe (st.1.filter (fun f => globMatch allPattern f))
  let toDelete := archives.filter
    (fun a => a ≠ current && !isLatestCommit latest (getCommitId a))
  (if dryRun then st.1 else removeAll st.1 toDelete, st.2 ++ toDelete)

/-- `_cleanup`: parse the ref tips, recompute the current archive name, run
the per-commit retention loop and then the orphan sweep.  Returns the final
listing and the deletion log; `none` models an uncaught exception. -/
def cleanup (env : CIEnv) (forEachRefOutput : List Char) (listing : List (List Char))
    (cacheSize : Nat) (dryRun : Bool) :
    Option (List (List Char) × List (List Char)) := do
  let latest := latestCommits forEachRefOutput
  let current := currentName env
  let st1 ← perCommitPass current latest cacheSize dryRun (listing, [])
  some (orphanSweep current latest dryRun st1)

/-! ## Archive construction (`_store`)

Entry names come from `artifact.split(git_dir)[1].lstrip(os.path.sep)`:
Python `str.split` cuts at every non-overlapping leftmost occurrence of
`git_dir`, `[1]` takes the piece after the first cut (an `IndexError` when
there is none), and `lstrip` drops leading separators. -/

/-- Split `s` at the leftmost occurrence of `needle`: the part before it and
the part after it. -/
def splitFirst (needle : List Char) : List Char → Option (List Char × List Char)
  | [] => if needle = [] then some ([], []) else none
  | c :: s =>
    if needle.isPrefixOf (c :: s) then some ([], (c :: s).drop needle.length)
    else (splitFirst needle s).map fun r => (c :: r.1, r.2)

/-- Does `needle` occur as a contiguous substring of `s`? -/
def occursIn (needle s : List Char) : Bool :=
  (splitFirst needle s).isSome

/-- Fuel-driven core of Python `str.split` with a nonempty separator. -/
def splitAllAux (needle : List Char) : Nat → List Char → List (List Char)
  | 0, s => [s]
  | fuel + 1, s =>
    match splitFirst needle s with
    | none => [s]
    | some (pre, rest) => pre :: splitAllAux needle fuel rest

/-- Python `str.split(needle)` for a nonempty separator. -/
def splitAll (s needle : List Char) : List (List Char) :=
  splitAllAux needle (s.length + 1) s

/-- One tar entry name (line 168):
`artifact.split(git_dir)[1].lstrip(os.path.sep)`; `none` models the
`IndexError` raised when the artifact does not contain `git_dir`. -/
def entryName (gitDir artifact : List Char) : Option (List Char) :=
  match splitAll artifact gitDir with
  | _ :: second :: _ => some (second.dropWhile (fun c => c = '/'))
  | _ => none

/-- The entry names of the produced archive, in artifact order. -/
def storeEntries (gitDir : List Char) : List (List Char) → Option (List (List Char))
  | [] => some []
  | a :: as => do
    let e ← entryName gitDir a
    let es ← storeEntries gitDir as
    some (e :: es)

/-- The save directory as the filesystem sees it: whether it exists and the
names it contains. -/
structure SaveDir where
  dirExists : Bool
  files : List (List Char)
deriving DecidableEq

/-- `_store`: create the save directory if absent, write the archive of the
artifacts under the generated name — all skipped in dry-run mode.  Returns
the updated directory and the archive name; `none` models an exception while
computing entry names. -/
def store (env : CIEnv) (artifacts : List (List Char)) (gitDir : List Char)
    (dryRun : Bool) (sd : SaveDir) : Option (SaveDir × List Char) :=
  let name := currentName env
  if dryRun then some (sd, name)
  else
    (storeEntries gitDir artifacts).map fun _ =>
      (⟨true, if name ∈ sd.files then sd.files else sd.files ++ [name]⟩, name)

/-! ## Artifact discovery (`_excavate`)

`re.finditer(r'^\s*would\s+remove\s+(?P<path>.+)$\n', output,
re.IGNORECASE | re.MULTILINE)`.  A match must start at a line start; `\s`
includes the newline, so the gaps may span lines; `.+` is the maximal
newline-free run and `$\n` forces a terminating newline.  The greedy
`\s+` before the path backtracks only when everything up to the line end is
whitespace, so the accepted gap is the longest whitespace prefix that leaves
a non-newline character with a newline somewhere after it. -/

/-- The length of the `\s+` gap accepted before `(?P<path>.+)$\n` in `t`:
the largest `k ≤ bound` such that `t` has a non-newline character at
position `k` and a newline after it.  `bound` starts at the length of the
whitespace prefix of `t`. -/
def gapLength (t : List Char) : Nat → Option Nat
  | 0 => none
  | k + 1 =>
    if ((t.drop (k + 1)).head?.any fun c => c ≠ '\n') && (t.drop (k + 1)).contains '\n'
    then some (k + 1)
    else gapLength t k

/-- Match `\s+(?P<path>.+)$\n` against `t`: the raw path group and the text
after the consumed newline. -/
def matchGapPathNl (t : List Char) : Option (List Char × List Char) :=
  (gapLength t (t.takeWhile isPySpace).length).map fun k =>
    ((t.drop k).takeWhile fun c => c ≠ '\n',
      ((t.drop k).dropWhile fun c => c ≠ '\n').drop 1)

/-- Attempt the whole pattern at a line start of `s`: on success, the raw
path group and the rest of the text after the match. -/
def matchWouldRemove (s : List Char) : Option (List Char × List Char) :=
  let s1 := s.dropWhile isPySpace
  if ciHead "would".data s1 then
    let s2 := s1.drop 5
    if s2.head?.any isPySpace then
      let s3 := s2.dropWhile isPySpace
      if ciHead "remove".data s3 then matchGapPathNl (s3.drop 6)
      else none
    else none
  else none

/-- Skip to just after the next newline (a failed match attempt: no position
inside the line can start a new match, since `^` only holds at line starts). -/
def skipLine (s : List Char) : List Char :=
  (s.dropWhile (fun c => c ≠ '\n')).drop 1

/-- Fuel-driven `finditer` scan collecting the raw path groups in order.
Every successful match ends just after a newline, so scanning resumes at a
line start; a failed attempt skips the line.  The fuel only bounds the
recursion: every iteration on a nonempty text shortens it and the empty text
never matches, so `s.length + 1` always suffices. -/
def scanPathsAux : Nat → List Char → List (List Char)
  | 0, _ => []
  | fuel + 1, s =>
    match matchWouldRemove s with
    | some (p, rest) => p :: scanPathsAux fuel rest
    | none => scanPathsAux fuel (skipLine s)

/-- All raw path groups of the `would remove` matches, in order. -/
def scanPaths (s : List Char) : List (List Char) :=
  scanPathsAux (s.length + 1) s

/-- `_excavate`: the discovered artifacts — each reported path, stripped,
joined onto the working directory. -/
def excavateArtifacts (gitDir output : List Char) : List (List Char) :=
  (scanPaths output).map fun p => pathJoin gitDir (pyStrip p)

/-! ### Structured `git clean -n` outputs

The amended discovery claim quantifies over outputs that are newline-
terminated sequences of lines, each either a well-formed
`[ws] would <ws> remove <ws> path` report or a line that does not start a
report. -/

/-- One output line: a `would remove` report split into its lexical parts,
or any other text. -/
inductive CleanLine where
  | report (ws0 wd ws1 rm ws2 path : List Char)
  | junk (text : List Char)

/-- The text of a line. -/
def renderLine : CleanLine → List Char
  | .report ws0 wd ws1 rm ws2 path => ws0 ++ wd ++ ws1 ++ rm ++ ws2 ++ path
  | .junk t => t

/-- A newline-terminated output built from lines. -/
def renderOutput : List CleanLine → List Char
  | [] => []
  | l :: ls => renderLine l ++ '\n' :: renderOutput ls

/-- The raw regex path group a line contributes. -/
def rawPath : CleanLine → Option (List Char)
  | .report _ _ _ _ _ path => some path
  | .junk _ => none

/-- The artifact a line contributes: the stripped path joined onto the
working directory. -/
def reportPath (gitDir : List Char) : CleanLine → Option (List Char)
  | .report _ _ _ _ _ path => some (pathJoin gitDir (pyStrip path))
  | .junk _ => none

/-- In-line whitespace: Python `\s` without the newline. -/
def isInlineSpace (c : Char) : Bool :=
  isPySpace c && c ≠ '\n'

/-- Well-formedness of a line: a report has whitespace-only gaps confined to
its line, case-insensitive `would` and `remove` keywords, nonempty gaps
between them, and a nonempty newline-free path starting with a non-space
character; a junk line is newline-free and, after leading whitespace, is
nonempty and does not begin with case-insensitive `would`. -/
def wfLine : CleanLine → Bool
  | .report ws0 wd ws1 rm ws2 path =>
    ws0.all isInlineSpace
    && (wd.length = 5 && ciHead "would".data wd)
    && (!ws1.isEmpty && ws1.all isInlineSpace)
    && (rm.length = 6 && ciHead "remove".data rm)
    && (!ws2.isEmpty && ws2.all isInlineSpace)
    && (!path.isEmpty && path.all (fun c => c ≠ '\n')
        && path.head?.all fun c => !isPySpace c)
  | .junk t =>
    t.all (fun c => c ≠ '\n')
    && !(t.dropWhile isPySpace).isEmpty
    && !ciHead "would".data (t.dropWhile isPySpace)

/-! ## Subprocess wrapper (`_check_output`)

The captured process outcome is a return code plus the text each branch
captures (`check_output` captures stdout alone; the fallback reads stdout
and stderr together).  The raised Python exception is modelled by what it
carries: `check_output` raises `CalledProcessError(returncode, cmd,
output=stdout)`, the fallback raises a plain `Exception` whose message is
formatted from the command and the return code only. -/

/-- A finished subprocess: exit status, captured stdout, and the combined
stdout/stderr text the fallback reader accumulates. -/
structure ProcResult where
  returncode : Int
  stdout : List Char
  combined : List Char

/-- What the exception raised by `_check_output` carries. -/
inductive CheckOutputError where
  | calledProcessError (returncode : Int) (cmd : List (List Char)) (output : List Char)
  | plainExc (cmd : List (List Char)) (returncode : Int)
deriving DecidableEq

/-- The captured output recoverable from a raised error, when it carries one. -/
def errorOutput : CheckOutputError → Option (List Char)
  | .calledProcessError _ _ output => some output
  | .plainExc _ _ => none

/-- `_check_output(logger, command)`: dispatch on whether the runtime has
`subprocess.check_output`; non-zero exit raises either way. -/
def checkOutput (hasCheckOutput : Bool) (cmd : List (List Char)) (proc : ProcResult) :
    Except CheckOutputError (List Char) :=
  if hasCheckOutput then
    if proc.returncode = 0 then .ok proc.stdout
    else .error (.calledProcessError proc.returncode cmd proc.stdout)
  else
    if proc.returncode = 0 then .ok proc.combined
    else .error (.plainExc cmd proc.returncode)

/-! ## One full run (discover, store, clean up) over the modelled state -/

/-- `main`'s pipeline after argument parsing: discover artifacts from the
`git clean -ndx` output, store them, then clean up, over a given initial
save directory. -/
def fullRun (env : CIEnv) (gitDir : List Char) (cleanOutput refOutput : List Char)
    (cacheSize : Nat) (dryRun : Bool) (sd : SaveDir) :
    Option (SaveDir × List (List Char)) := do
  let artifacts := excavateArtifacts gitDir cleanOutput
  let (sd1, _) ← store env artifacts gitDir dryRun sd
  let (files2, log) ← cleanup env refOutput sd1.files cacheSize dryRun
  some (⟨sd1.dirExists, files2⟩, log)

/-- A sample CI environment fixing the four variables, used by the concrete
evaluations below.  Its current archive name is
`proj_main_cafebabe_7.tar.gz`. -/
def sampleEnv : CIEnv :=
  ⟨some "/b/proj".data, some "main".data, some "cafebabe1234".data, some "7".data⟩

/-! ## Helper lemmas about sorting, deletion and the passes -/

theorem mem_stableInsert {α : Type _} {le : α → α → Bool} {x a : α} {l : List α} :
    a ∈ stableInsert le x l ↔ a = x ∨ a ∈ l := by
  induction l with
  | nil => simp [stableInsert]
  | cons y ys ih =>
    unfold stableInsert
    by_cases h : le x y
    · rw [if_pos h]
      simp
    · rw [if_neg h]
      simp only [List.mem_cons, ih]
      tauto

theorem mem_stableSort {α : Type _} {le : α → α → Bool} {a : α} {l : List α} :
    a ∈ stableSort le l ↔ a ∈ l := by
  induction l with
  | nil => simp [stableSort]
  | cons y ys ih => simp [stableSort, mem_stableInsert, ih]

theorem keyArchives_map_fst {l : List (List Char)} {ks : List (List Char × Nat)}
    (h : keyArchives l = some ks) : ks.map Prod.fst = l := by
  induction l generalizing ks with
  | nil => simp [keyArchives] at h; simp [← h]
  | cons a as ih =>
    simp only [keyArchives, bind, Option.bind] at h
    cases hk : getBuildId a with
    | none => simp [hk] at h
    | some k =>
      simp only [hk] at h
      cases hks : keyArchives as with
      | none => simp [hks] at h
      | some ks' =>
        simp only [hks] at h
        cases h
        simp [ih hks]

theorem keyArchives_isSome {l : List (List Char)}
    (h : ∀ a ∈ l, (getBuildId a).isSome) : (keyArchives l).isSome := by
  induction l with
  | nil => simp [keyArchives]
  | cons a as ih =>
    have ha := h a (List.mem_cons_self a as)
    cases hk : getBuildId a with
    | none => rw [hk] at ha; simp at ha
    | some k =>
      have := ih (fun b hb => h b (List.mem_cons_of_mem a hb))
      cases hks : keyArchives as with
      | none => rw [hks] at this; simp at this
      | some ks => simp [keyArchives, hk, hks]

theorem mem_sortByBuildIdDesc {l s : List (List Char)} {a : List Char}
    (h : sortByBuildIdDesc l = some s) : a ∈ s ↔ a ∈ l := by
  unfold sortByBuildIdDesc at h
  cases hks : keyArchives l with
  | none => rw [hks] at h; cases h
  | some ks =>
  rw [hks] at h
  simp only [Option.map_some'] at h
  cases h
  rw [← keyArchives_map_fst hks]
  constructor
  · intro hm
    obtain ⟨p, hp, rfl⟩ := List.mem_map.1 hm
    exact List.mem_map_of_mem _ (mem_stableSort.1 hp)
  · intro hm
    obtain ⟨p, hp, rfl⟩ := List.mem_map.1 hm
    exact List.mem_map_of_mem _ (mem_stableSort.2 hp)

theorem removeAll_sublist (listing toDelete : List (List Char)) :
    (removeAll listing toDelete).Sublist listing := by
  induction toDelete generalizing listing with
  | nil => simp [removeAll]
  | cons d ds ih =>
    exact ((ih (listing.erase d)).trans (List.erase_sublist d listing)).trans
      (List.Sublist.refl listing)

theorem removeAll_subset {listing toDelete : List (List Char)} {a : List Char}
    (h : a ∈ removeAll listing toDelete) : a ∈ listing :=
  (removeAll_sublist listing toDelete).subset h

theorem mem_removeAll_of_ne {listing toDelete : List (List Char)} {a : List Char}
    (hne : ∀ d ∈ toDelete, a ≠ d) (ha : a ∈ listing) : a ∈ removeAll listing toDelete := by
  induction toDelete generalizing listing with
  | nil => simpa [removeAll] using ha
  | cons d ds ih =>
    have : a ∈ listing.erase d :=
      (List.mem_erase_of_ne (hne d (List.mem_cons_self d ds))).2 ha
    exact ih (fun x hx => hne x (List.mem_cons_of_mem d hx)) this

theorem nodup_removeAll {listing : List (List Char)} (toDelete : List (List Char))
    (h : listing.Nodup) : (removeAll listing toDelete).Nodup :=
  (removeAll_sublist listing toDelete).nodup h

theorem not_mem_removeAll {listing toDelete : List (List Char)} {a : List Char}
    (hnd : listing.Nodup) (ha : a ∈ toDelete) : a ∉ removeAll listing toDelete := by
  induction toDelete generalizing listing with
  | nil => cases ha
  | cons d ds ih =>
    rcases List.mem_cons.1 ha with rfl | ha'
    · intro hmem
      have : a ∈ listing.erase a := removeAll_subset hmem
      exact ((hnd.mem_erase_iff).1 this).1 rfl
    · exact ih (hnd.erase d) ha'

/-- Unfolded shape of a successful `perCommitStep`. -/
theorem perCommitStep_eq {current : List Char} {cacheSize : Nat} {dryRun : Bool}
    {st st' : List (List Char) × List (List Char)} {commit : List Char}
    (h : perCommitStep current cacheSize dryRun st commit = some st') :
    ∃ sorted, sortByBuildIdDesc (st.1.filter fun f => globMatch (commitPattern commit) f)
        = some sorted
      ∧ st'.1 = (if dryRun then st.1
          else removeAll st.1 ((sorted.drop cacheSize).filter fun a => a ≠ current))
      ∧ st'.2 = st.2 ++ (sorted.drop cacheSize).filter fun a => a ≠ current := by
  simp only [perCommitStep, bind, Option.bind] at h
  cases hs : sortByBuildIdDesc (st.1.filter fun f => globMatch (commitPattern commit) f) with
  | none => rw [hs] at h; cases h
  | some sorted =>
    rw [hs] at h
    simp only [Option.some_inj] at h
    exact ⟨sorted, rfl, by rw [← h], by rw [← h]⟩

/-- Every name a `perCommitStep` deletes or logs glob-matches the commit's
pattern, was present, and differs from the current archive. -/
theorem perCommitStep_delete_shape {current : List Char} {cacheSize : Nat} {dryRun : Bool}
    {st st' : List (List Char) × List (List Char)} {commit : List Char}
    (h : perCommitStep current cacheSize dryRun st commit = some st') :
    ∀ x ∈ st'.2, x ∈ st.2 ∨
      (x ∈ st.1 ∧ globMatch (commitPattern commit) x = true ∧ x ≠ current) := by
  obtain ⟨sorted, hs, _, hlog⟩ := perCommitStep_eq h
  intro x hx
  rw [hlog] at hx
  rcases List.mem_append.1 hx with hold | hnew
  · exact Or.inl hold
  · right
    have hx1 := List.mem_filter.1 hnew
    have hx2 : x ∈ sorted := List.mem_of_mem_drop hx1.1
    have hx3 : x ∈ st.1.filter fun f => globMatch (commitPattern commit) f :=
      (mem_sortByBuildIdDesc hs).1 hx2
    have hx4 := List.mem_filter.1 hx3
    exact ⟨hx4.1, hx4.2, by simpa using hx1.2⟩

/-- `perCommitStep` keeps the listing a sublist of itself and preserves
`Nodup`; in dry-run mode it keeps it unchanged. -/
theorem perCommitStep_sublist {current : List Char} {cacheSize : Nat} {dryRun : Bool}
    {st st' : List (List Char) × List (List Char)} {commit : List Char}
    (h : perCommitStep current cacheSize dryRun st commit = some st') :
    st'.1.Sublist st.1 := by
  obtain ⟨sorted, _, hlst, _⟩ := perCommitStep_eq h
  rw [hlst]
  cases dryRun with
  | true => simp
  | false => simpa using removeAll_sublist _ _

/-- A present name that does not glob-match the commit's pattern survives a
`perCommitStep` untouched. -/
theorem perCommitStep_keeps_unmatched {current : List Char} {cacheSize : Nat}
    {dryRun : Bool} {st st' : List (List Char) × List (List Char)} {commit f : List Char}
    (h : perCommitStep current cacheSize dryRun st commit = some st')
    (hf : f ∈ st.1) (hglob : globMatch (commitPattern commit) f = false) :
    f ∈ st'.1 := by
  obtain ⟨sorted, hs, hlst, _⟩ := perCommitStep_eq h
  rw [hlst]
  cases dryRun with
  | true => simpa using hf
  | false =>
    simp only [if_neg Bool.false_ne_true]
    refine mem_removeAll_of_ne (fun d hd => ?_) hf
    intro hfd
    have hd1 : d ∈ sorted := List.mem_of_mem_drop (List.mem_filter.1 hd).1
    have hd2 := List.mem_filter.1 ((mem_sortByBuildIdDesc hs).1 hd1)
    rw [← hfd] at hd2
    rw [hd2.2] at hglob
    cases hglob

/-- The current archive always survives a `perCommitStep`. -/
theorem perCommitStep_keeps_current {current : List Char} {cacheSize : Nat}
    {dryRun : Bool} {st st' : List (List Char) × List (List Char)} {commit : List Char}
    (h : perCommitStep current cacheSize dryRun st commit = some st')
    (hc : current ∈ st.1) : current ∈ st'.1 := by
  obtain ⟨sorted, _, hlst, _⟩ := perCommitStep_eq h
  rw [hlst]
  cases dryRun with
  | true => simpa using hc
  | false =>
    simp only [if_neg Bool.false_ne_true]
    refine mem_removeAll_of_ne (fun d hd => ?_) hc
    intro hcd
    have := (List.mem_filter.1 hd).2
    rw [← hcd] at this
    simp at this

/-- Pass-level consequences, by induction over the latest-commit list:
listing shrinkage, survival of the current archive, survival of names no
pattern matches, and the shape of logged deletions. -/
theorem perCommitPass_sublist {current : List Char} {latest : List (List Char)}
    {cacheSize : Nat} {dryRun : Bool} {st st' : List (List Char) × List (List Char)}
    (h : perCommitPass current latest cacheSize dryRun st = some st') :
    st'.1.Sublist st.1 := by
  induction latest generalizing st with
  | nil => cases h; exact List.Sublist.refl _
  | cons c cs ih =>
    unfold perCommitPass at h
    cases hstep : perCommitStep current cacheSize dryRun st c with
    | none => rw [hstep] at h; cases h
    | some st1 =>
      rw [hstep] at h
      simp only [Option.bind_some, bind, Option.bind] at h
      exact (ih h).trans (perCommitStep_sublist hstep)

theorem perCommitPass_keeps_current {current : List Char} {latest : List (List Char)}
    {cacheSize : Nat} {dryRun : Bool} {st st' : List (List Char) × List (List Char)}
    (h : perCommitPass current latest cacheSize dryRun st = some st')
    (hc : current ∈ st.1) : current ∈ st'.1 := by
  induction latest generalizing st with
  | nil => cases h; exact hc
  | cons c cs ih =>
    unfold perCommitPass at h
    cases hstep : perCommitStep current cacheSize dryRun st c with
    | none => rw [hstep] at h; cases h
    | some st1 =>
      rw [hstep] at h
      simp only [Option.bind_some, bind, Option.bind] at h
      exact ih h (perCommitStep_keeps_current hstep hc)

theorem perCommitPass_delete_shape {current : List Char} {latest : List (List Char)}
    {cacheSize : Nat} {dryRun : Bool} {st st' : List (List Char) × List (List Char)}
    (h : perCommitPass current latest cacheSize dryRun st = some st') :
    ∀ x ∈ st'.2, x ∈ st.2 ∨
      (∃ c ∈ latest, globMatch (commitPattern c) x = true) ∧ x ≠ current := by
  induction latest generalizing st with
  | nil => cases h; intro x hx; exact Or.inl hx
  | cons c cs ih =>
    unfold perCommitPass at h
    cases hstep : perCommitStep current cacheSize dryRun st c with
    | none => rw [hstep] at h; cases h
    | some st1 =>
      rw [hstep] at h
      simp only [Option.bind_some, bind, Option.bind] at h
      intro x hx
      rcases ih h x hx with hold | ⟨⟨c', hc', hg⟩, hne⟩
      · rcases perCommitStep_delete_shape hstep x hold with h1 | ⟨_, hg, hne⟩
        · exact Or.inl h1
        · exact Or.inr ⟨⟨c, List.mem_cons_self c cs, hg⟩, hne⟩
      · exact Or.inr ⟨⟨c', List.mem_cons_of_mem c hc', hg⟩, hne⟩

theorem perCommitPass_keeps_unmatched {current : List Char} {latest : List (List Char)}
    {cacheSize : Nat} {dryRun : Bool} {st st' : List (List Char) × List (List Char)}
    {f : List Char}
    (h : perCommitPass current latest cacheSize dryRun st = some st')
    (hf : f ∈ st.1) (hglob : ∀ c ∈ latest, globMatch (commitPattern c) f = false) :
    f ∈ st'.1 := by
  induction latest generalizing st with
  | nil => cases h; exact hf
  | cons c cs ih =>
    unfold perCommitPass at h
    cases hstep : perCommitStep current cacheSize dryRun st c with
    | none => rw [hstep] at h; cases h
    | some st1 =>
      rw [hstep] at h
      simp only [Option.bind_some, bind, Option.bind] at h
      exact ih h
        (perCommitStep_keeps_unmatched hstep hf (hglob c (List.mem_cons_self c cs)))
        (fun c' hc' => hglob c' (List.mem_cons_of_mem c hc'))

/-- The names the orphan sweep deletes or logs: glob-matching, present,
not current, with a non-latest embedded commit. -/
theorem orphanSweep_delete_shape {current : List Char} {latest : List (List Char)}
    {dryRun : Bool} {st : List (List Char) × List (List Char)} :
    ∀ x ∈ (orphanSweep current latest dryRun st).2, x ∈ st.2 ∨
      (x ∈ st.1 ∧ globMatch allPattern x = true ∧ x ≠ current
        ∧ isLatestCommit latest (getCommitId x) = false) := by
  intro x hx
  unfold orphanSweep at hx
  rcases List.mem_append.1 hx with hold | hnew
  · exact Or.inl hold
  · right
    have h1 := List.mem_filter.1 hnew
    have h2 := List.mem_filter.1 (mem_stableSort.1 h1.1)
    have h3 := h1.2
    simp only [Bool.and_eq_true, decide_eq_true_eq, Bool.not_eq_true'] at h3
    exact ⟨h2.1, h2.2, h3.1, h3.2⟩

/-- Orphan-sweep survival: present names that are current, or match no
latest... or do not glob-match at all, survive; its listing is a sublist. -/
theorem orphanSweep_sublist {current : List Char} {latest : List (List Char)}
    {dryRun : Bool} {st : List (List Char) × List (List Char)} :
    (orphanSweep current latest dryRun st).1.Sublist st.1 := by
  unfold orphanSweep
  cases dryRun with
  | true => simp
  | false => simpa using removeAll_sublist _ _

theorem orphanSweep_keeps {current : List Char} {latest : List (List Char)}
    {dryRun : Bool} {st : List (List Char) × List (List Char)} {f : List Char}
    (hf : f ∈ st.1)
    (hkeep : f = current ∨ globMatch allPattern f = false
      ∨ isLatestCommit latest (getCommitId f) = true) :
    f ∈ (orphanSweep current latest dryRun st).1 := by
  unfold orphanSweep
  cases dryRun with
  | true => simpa using hf
  | false =>
    simp only [if_neg Bool.false_ne_true]
    refine mem_removeAll_of_ne (fun d hd => ?_) hf
    intro hfd
    have h1 := List.mem_filter.1 hd
    have h2 := List.mem_filter.1 (mem_stableSort.1 h1.1)
    have h3 := h1.2
    simp only [Bool.and_eq_true, decide_eq_true_eq, Bool.not_eq_true'] at h3
    rw [← hfd] at h2 h3
    rcases hkeep with rfl | hglob | hlatest
    · exact h3.1 rfl
    · rw [h2.2] at hglob; cases hglob
    · rw [h3.2] at hlatest; cases hlatest

/-- Unfolded shape of a successful `cleanup`. -/
theorem cleanup_eq {env : CIEnv} {output : List Char} {listing : List (List Char)}
    {cacheSize : Nat} {dryRun : Bool} {r : List (List Char) × List (List Char)}
    (h : cleanup env output listing cacheSize dryRun = some r) :
    ∃ st1, perCommitPass (currentName env) (latestCommits output) cacheSize dryRun
        (listing, []) = some st1
      ∧ r = orphanSweep (currentName env) (latestCommits output) dryRun st1 := by
  simp only [cleanup, bind, Option.bind] at h
  cases hp : perCommitPass (currentName env) (latestCommits output) cacheSize dryRun
      (listing, []) with
  | none => rw [hp] at h; cases h
  | some st1 =>
    rw [hp] at h
    simp only [Option.some_inj] at h
    exact ⟨st1, rfl, h.symm⟩

/-! ## Lemmas for entry names -/

theorem splitFirst_append_self {gitDir : List Char} (r : List Char) (hg : gitDir ≠ []) :
    splitFirst gitDir (gitDir ++ r) = some ([], r) := by
  cases gitDir with
  | nil => exact absurd rfl hg
  | cons gc gs =>
    have hpre : (gc :: gs).isPrefixOf ((gc :: gs) ++ r) = true := by
      rw [List.isPrefixOf_iff_prefix]
      exact List.prefix_append _ _
    have hstep : splitFirst (gc :: gs) ((gc :: gs) ++ r)
        = if (gc :: gs).isPrefixOf ((gc :: gs) ++ r) = true
          then some ([], ((gc :: gs) ++ r).drop (gc :: gs).length)
          else ((splitFirst (gc :: gs) (gs ++ r)).map fun p => (gc :: p.1, p.2)) := rfl
    rw [hstep, if_pos hpre, List.drop_left]

theorem splitFirst_eq_none {needle s : List Char} (h : occursIn needle s = false) :
    splitFirst needle s = none := by
  unfold occursIn at h
  cases hs : splitFirst needle s with
  | none => rfl
  | some p => rw [hs] at h; cases h

theorem splitAllAux_no_occur {needle s : List Char} (fuel : Nat)
    (h : occursIn needle s = false) : splitAllAux needle fuel s = [s] := by
  cases fuel with
  | zero => rfl
  | succ n => simp [splitAllAux, splitFirst_eq_none h]

theorem entryName_append {gitDir : List Char} (r : List Char) (hg : gitDir ≠ [])
    (h : occursIn gitDir r = false) :
    entryName gitDir (gitDir ++ r) = some (r.dropWhile fun c => c = '/') := by
  unfold entryName splitAll
  rw [show (gitDir ++ r).length + 1 = ((gitDir ++ r).length) + 1 from rfl]
  simp only [splitAllAux, splitFirst_append_self r hg, splitAllAux_no_occur _ h]

/-! ## Sorting facts -/

theorem stableInsert_perm {α : Type _} (le : α → α → Bool) (x : α) (l : List α) :
    (stableInsert le x l).Perm (x :: l) := by
  induction l with
  | nil => exact List.Perm.refl _
  | cons y ys ih =>
    unfold stableInsert
    by_cases h : le x y
    · rw [if_pos h]
    · rw [if_neg h]
      exact (ih.cons y).trans (List.Perm.swap x y ys)

theorem stableSort_perm {α : Type _} (le : α → α → Bool) (l : List α) :
    (stableSort le l).Perm l := by
  induction l with
  | nil => exact List.Perm.refl _
  | cons x xs ih =>
    exact (stableInsert_perm le x (stableSort le xs)).trans (ih.cons x)

theorem stableInsert_pairwise {α : Type _} {le : α → α → Bool}
    (htrans : ∀ a b c, le a b = true → le b c = true → le a c = true)
    (htot : ∀ a b, le a b = true ∨ le b a = true) {x : α} {l : List α}
    (h : l.Pairwise fun a b => le a b = true) :
    (stableInsert le x l).Pairwise fun a b => le a b = true := by
  induction l with
  | nil => exact List.pairwise_singleton _ x
  | cons y ys ih =>
    unfold stableInsert
    by_cases hxy : le x y
    · rw [if_pos hxy]
      refine List.Pairwise.cons (fun z hz => ?_) h
      rcases List.mem_cons.1 hz with rfl | hz'
      · exact hxy
      · exact htrans x y z hxy (List.rel_of_pairwise_cons h hz')
    · rw [if_neg hxy]
      refine List.Pairwise.cons (fun z hz => ?_) (ih h.of_cons)
      rcases (mem_stableInsert).1 hz with rfl | hz'
      · rcases htot z y with hzy | hyz
        · exact absurd hzy hxy
        · exact hyz
      · exact List.rel_of_pairwise_cons h hz'

theorem stableSort_pairwise {α : Type _} {le : α → α → Bool}
    (htrans : ∀ a b c, le a b = true → le b c = true → le a c = true)
    (htot : ∀ a b, le a b = true ∨ le b a = true) (l : List α) :
    (stableSort le l).Pairwise fun a b => le a b = true := by
  induction l with
  | nil => exact List.Pairwise.nil
  | cons x xs ih => exact stableInsert_pairwise htrans htot ih

theorem idDescLe_trans : ∀ a b c : List Char × Nat,
    idDescLe a b = true → idDescLe b c = true → idDescLe a c = true := by
  intro a b c hab hbc
  simp only [idDescLe, decide_eq_true_eq] at *
  omega

theorem idDescLe_total : ∀ a b : List Char × Nat,
    idDescLe a b = true ∨ idDescLe b a = true := by
  intro a b
  simp only [idDescLe, decide_eq_true_eq]
  omega

/-! ## Keyed-list facts -/

theorem keyArchives_mem_key {l : List (List Char)} {ks : List (List Char × Nat)}
    (h : keyArchives l = some ks) : ∀ p ∈ ks, getBuildId p.1 = some p.2 := by
  induction l generalizing ks with
  | nil => simp [keyArchives] at h; simp [h]
  | cons a as ih =>
    simp only [keyArchives, bind, Option.bind] at h
    cases hk : getBuildId a with
    | none => simp [hk] at h
    | some k =>
      rw [hk] at h
      cases hks : keyArchives as with
      | none => rw [hks] at h; cases h
      | some ks' =>
        rw [hks] at h
        simp only [Option.some_inj] at h
        subst h
        intro p hp
        rcases List.mem_cons.1 hp with rfl | hp'
        · exact hk
        · exact ih hks p hp'

theorem keyArchives_map_snd {l : List (List Char)} {ks : List (List Char × Nat)}
    (h : keyArchives l = some ks) :
    ks.map (fun p => some p.2) = l.map getBuildId := by
  induction l generalizing ks with
  | nil => simp [keyArchives] at h; simp [← h]
  | cons a as ih =>
    simp only [keyArchives, bind, Option.bind] at h
    cases hk : getBuildId a with
    | none => simp [hk] at h
    | some k =>
      rw [hk] at h
      cases hks : keyArchives as with
      | none => rw [hks] at h; cases h
      | some ks' =>
        rw [hks] at h
        simp only [Option.some_inj] at h
        subst h
        simp [ih hks, hk]

/-- A sublist that contains every element of a duplicate-free superlist is the
whole list. -/
theorem sublist_eq_of_superset {α : Type _} [DecidableEq α] {s t : List α}
    (hs : s.Sublist t) (hsup : ∀ x ∈ t, x ∈ s) (hnd : t.Nodup) : s = t :=
  hs.eq_of_length
    (Nat.le_antisymm hs.length_le ((List.subperm_of_subset hnd hsup).length_le))

/-- One unfolding step of the per-commit pass. -/
theorem perCommitPass_cons {current c : List Char} {cs : List (List Char)}
    {cacheSize : Nat} {dryRun : Bool} {st : List (List Char) × List (List Char)} :
    perCommitPass current (c :: cs) cacheSize dryRun st
      = (perCommitStep current cacheSize dryRun st c).bind
          (perCommitPass current cs cacheSize dryRun) := rfl

/-- Splitting a per-commit pass along an append of the commit list. -/
theorem perCommitPass_append {current : List Char} {l1 l2 : List (List Char)}
    {cacheSize : Nat} {dryRun : Bool} {st : List (List Char) × List (List Char)} :
    perCommitPass current (l1 ++ l2) cacheSize dryRun st
      = (perCommitPass current l1 cacheSize dryRun st).bind
          (perCommitPass current l2 cacheSize dryRun) := by
  induction l1 generalizing st with
  | nil => simp [perCommitPass]
  | cons c cs ih =>
    rw [List.cons_append, perCommitPass_cons, perCommitPass_cons]
    cases hstep : perCommitStep current cacheSize dryRun st c with
    | none => simp
    | some st1 => simp [ih]

/-! ## Dry-run and success lemmas -/

theorem perCommitStep_dry {current : List Char} {cacheSize : Nat}
    {st st' : List (List Char) × List (List Char)} {commit : List Char}
    (h : perCommitStep current cacheSize true st commit = some st') : st'.1 = st.1 := by
  obtain ⟨sorted, _, hlst, _⟩ := perCommitStep_eq h
  simpa using hlst

theorem perCommitPass_dry {current : List Char} {latest : List (List Char)}
    {cacheSize : Nat} {st st' : List (List Char) × List (List Char)}
    (h : perCommitPass current latest cacheSize true st = some st') : st'.1 = st.1 := by
  induction latest generalizing st with
  | nil => cases h; rfl
  | cons c cs ih =>
    unfold perCommitPass at h
    cases hstep : perCommitStep current cacheSize true st c with
    | none => rw [hstep] at h; cases h
    | some st1 =>
      rw [hstep] at h
      simp only [Option.bind_some, bind, Option.bind] at h
      rw [ih h, perCommitStep_dry hstep]

theorem orphanSweep_dry {current : List Char} {latest : List (List Char)}
    {st : List (List Char) × List (List Char)} :
    (orphanSweep current latest true st).1 = st.1 := by
  unfold orphanSweep
  simp

theorem perCommitStep_isSome {current : List Char} {cacheSize : Nat} {dryRun : Bool}
    {st : List (List Char) × List (List Char)} {commit : List Char}
    (hkeys : ∀ g ∈ st.1, (getBuildId g).isSome) :
    (perCommitStep current cacheSize dryRun st commit).isSome := by
  have hk : (sortByBuildIdDesc
      (st.1.filter fun f => globMatch (commitPattern commit) f)).isSome := by
    unfold sortByBuildIdDesc
    have := keyArchives_isSome
      (l := st.1.filter fun f => globMatch (commitPattern commit) f)
      (fun a ha => hkeys a (List.mem_of_mem_filter ha))
    cases hka : keyArchives (st.1.filter fun f => globMatch (commitPattern commit) f) with
    | none => rw [hka] at this; simp at this
    | some ks => simp [hka]
  simp only [perCommitStep, bind, Option.bind]
  cases hs : sortByBuildIdDesc (st.1.filter fun f => globMatch (commitPattern commit) f) with
  | none => rw [hs] at hk; simp at hk
  | some sorted => simp

theorem perCommitPass_isSome {current : List Char} {latest : List (List Char)}
    {cacheSize : Nat} {dryRun : Bool} {st : List (List Char) × List (List Char)}
    (hkeys : ∀ g ∈ st.1, (getBuildId g).isSome) :
    (perCommitPass current latest cacheSize dryRun st).isSome := by
  induction latest generalizing st with
  | nil => simp [perCommitPass]
  | cons c cs ih =>
    unfold perCommitPass
    cases hstep : perCommitStep current cacheSize dryRun st c with
    | none =>
      have := @perCommitStep_isSome current cacheSize dryRun st c hkeys
      rw [hstep] at this
      simp at this
    | some st1 =>
      simp only [Option.bind_some, bind, Option.bind]
      exact ih fun g hg =>
        hkeys g ((perCommitStep_sublist hstep).subset hg)

theorem perCommitStep_nodup {current : List Char} {cacheSize : Nat} {dryRun : Bool}
    {st st' : List (List Char) × List (List Char)} {commit : List Char}
    (h : perCommitStep current cacheSize dryRun st commit = some st')
    (hnd : st.1.Nodup) : st'.1.Nodup :=
  List.Nodup.sublist (perCommitStep_sublist h) hnd

/-- With retention count 0 and no dry run, any name glob-matching a latest
commit's pattern, other than the current archive, is gone after the
per-commit pass. -/
theorem perCommitPass_zero_deletes {current : List Char} {latest : List (List Char)}
    {st st' : List (List Char) × List (List Char)} {c f : List Char}
    (h : perCommitPass current latest 0 false st = some st')
    (hnd : st.1.Nodup) (hc : c ∈ latest)
    (hglob : globMatch (commitPattern c) f = true) (hne : f ≠ current) :
    f ∉ st'.1 := by
  induction latest generalizing st with
  | nil => cases hc
  | cons c0 cs ih =>
    unfold perCommitPass at h
    cases hstep : perCommitStep current 0 false st c0 with
    | none => rw [hstep] at h; cases h
    | some st1 =>
      rw [hstep] at h
      simp only [Option.bind_some, bind, Option.bind] at h
      rcases List.mem_cons.1 hc with rfl | hcs
      · by_cases hf : f ∈ st.1
        · obtain ⟨sorted, hs, hlst, _⟩ := perCommitStep_eq hstep
          have hmem : f ∈ sorted :=
            (mem_sortByBuildIdDesc hs).2 (List.mem_filter.2 ⟨hf, hglob⟩)
          have hdel : f ∈ (sorted.drop 0).filter fun a => a ≠ current := by
            rw [List.drop_zero]
            exact List.mem_filter.2 ⟨hmem, by simpa using hne⟩
          have hnotin : f ∉ st1.1 := by
            rw [hlst, if_neg Bool.false_ne_true]
            exact not_mem_removeAll hnd hdel
          exact fun hmem' => hnotin ((perCommitPass_sublist h).subset hmem')
        · intro hmem'
          exact hf ((perCommitStep_sublist hstep).subset
            ((perCommitPass_sublist h).subset hmem'))
      · exact ih h (perCommitStep_nodup hstep hnd) hcs

/-! ## Claim C3: the current archive is exempt -/

/-- C3: the current-archive path `_cleanup` recomputes is string-equal to the
path `_store` wrote (both derive from the same environment defaults), and a
successful cleanup never logs or deletes the current archive, for every save
directory state, ref output, retention count and dry-run flag. -/
theorem current_archive_exempt (env : CIEnv) (saveDir output : List Char)
    (listing : List (List Char)) (cacheSize : Nat) (dryRun : Bool) :
    storeArchivePath env saveDir = cleanupCurrentArc env saveDir
    ∧ ∀ r, cleanup env output listing cacheSize dryRun = some r →
        currentName env ∉ r.2 ∧ (currentName env ∈ listing → currentName env ∈ r.1) := by
  refine ⟨rfl, fun r h => ?_⟩
  obtain ⟨st1, hp, hr⟩ := cleanup_eq h
  constructor
  · intro hmem
    rw [hr] at hmem
    rcases orphanSweep_delete_shape _ hmem with hold | ⟨_, _, hne, _⟩
    · rcases perCommitPass_delete_shape hp _ hold with h0 | ⟨_, hne⟩
      · simp at h0
      · exact hne rfl
    · exact hne rfl
  · intro hin
    rw [hr]
    exact orphanSweep_keeps (perCommitPass_keeps_current hp hin) (Or.inl rfl)

/-- Witness for `current_archive_exempt` at a concrete save directory holding
the current archive and one orphan. -/
theorem current_archive_exempt_witness :
    currentName sampleEnv ∉ ["a_b_x_1.tar.gz".data]
    ∧ (currentName sampleEnv
          ∈ ["proj_main_cafebabe_7.tar.gz".data, "a_b_x_1.tar.gz".data] →
        currentName sampleEnv ∈ ["proj_main_cafebabe_7.tar.gz".data]) :=
  (current_archive_exempt sampleEnv "/s".data "cafebabe1234 refs/heads/m\n".data
      ["proj_main_cafebabe_7.tar.gz".data, "a_b_x_1.tar.gz".data] 0 false).2
    (["proj_main_cafebabe_7.tar.gz".data], ["a_b_x_1.tar.gz".data]) (by decide)

/-! ## Claim C5: archive naming -/

/-- C5: with all four fields supplied, the generated archive name is the
fixed format with the ref truncated to its first 8 characters (hence
deterministic and independent of the environment), and a ref shorter than 8
characters passes through `_short_ref` unchanged. -/
theorem archive_name_pure_truncated (env env' : CIEnv) (p rn r b : List Char) :
    generateArchiveName env (some p) (some rn) (some r) (some b)
      = p ++ '_' :: rn ++ '_' :: r.take 8 ++ '_' :: b ++ ".tar.gz".data
    ∧ generateArchiveName env (some p) (some rn) (some r) (some b)
      = generateArchiveName env' (some p) (some rn) (some r) (some b)
    ∧ (r.length < 8 → shortRef r = r) :=
  ⟨rfl, rfl, fun h => List.take_of_length_le (Nat.le_of_lt h)⟩

/-- Witness for `archive_name_pure_truncated` on a 3-character ref. -/
theorem archive_name_pure_truncated_witness : shortRef "abc".data = "abc".data :=
  (archive_name_pure_truncated sampleEnv ⟨none, none, none, none⟩
    "p".data "m".data "abc".data "1".data).2.2 (by decide)

/-! ## Claim C9: subprocess failure -/

/-- C9 counterexample: in the fallback branch (no `subprocess.check_output`),
a non-zero exit raises an exception built from the command and status alone —
the captured output is not recoverable from the raised error. -/
theorem checkOutput_fallback_counterexample :
    checkOutput false ["git".data, "clean".data, "-ndx".data]
        ⟨1, "out".data, "boom".data⟩
      = .error (.plainExc ["git".data, "clean".data, "-ndx".data] 1)
    ∧ errorOutput (.plainExc ["git".data, "clean".data, "-ndx".data] 1) = none := by
  exact ⟨rfl, rfl⟩

/-- C9 amended: a non-zero exit always raises, with the captured stdout
carried by the error only in the `check_output` branch (the fallback error
carries the command and status); a zero exit returns the captured text
(stdout, or the combined stream in the fallback) without raising. -/
theorem checkOutput_exit_behavior (hasCO : Bool) (cmd : List (List Char))
    (proc : ProcResult) :
    (proc.returncode ≠ 0 →
      checkOutput hasCO cmd proc
        = .error (if hasCO then .calledProcessError proc.returncode cmd proc.stdout
            else .plainExc cmd proc.returncode))
    ∧ (proc.returncode = 0 →
      checkOutput hasCO cmd proc = .ok (if hasCO then proc.stdout else proc.combined)) := by
  unfold checkOutput
  by_cases h : proc.returncode = 0 <;> cases hasCO <;> simp [h]

/-- Witness for `checkOutput_exit_behavior` at a failing and a passing
concrete invocation. -/
theorem checkOutput_exit_behavior_witness :
    checkOutput true ["git".data] ⟨2, "so".data, "sc".data⟩
      = .error (if true then .calledProcessError 2 ["git".data] "so".data
          else .plainExc ["git".data] 2) :=
  (checkOutput_exit_behavior true ["git".data] ⟨2, "so".data, "sc".data⟩).1 (by decide)

/-! ## Claim C6: archive entry names -/

/-- C6 counterexample: for working directory `/a` and artifact `/a/b/a/c`
(relative path `b/a/c`), `split(git_dir)[1]` cuts at the second occurrence of
`/a` as well, so the stored entry is `b`, not the relative path `b/a/c`. -/
theorem entry_name_split_counterexample :
    "/a/b/a/c".data = "/a".data ++ "/b/a/c".data
    ∧ storeEntries "/a".data ["/a/b/a/c".data] = some ["b".data]
    ∧ "b".data ≠ "b/a/c".data := by decide

/-- C6 amended: when the working-directory string does not reoccur inside any
artifact's relative part, the archive entries are exactly the relative paths
with leading separators stripped, in discovery order. -/
theorem storeEntries_relative (gitDir : List Char) (rels : List (List Char))
    (hg : gitDir ≠ [])
    (h : ∀ r ∈ rels, occursIn gitDir r = false) :
    storeEntries gitDir (rels.map fun r => gitDir ++ r)
      = some (rels.map fun r => r.dropWhile fun c => c = '/') := by
  induction rels with
  | nil => rfl
  | cons r rs ih =>
    have h1 := entryName_append r hg (h r (List.mem_cons_self r rs))
    have h2 := ih fun x hx => h x (List.mem_cons_of_mem r hx)
    simp [storeEntries, h1, h2, bind, Option.bind]

/-- Witness for `storeEntries_relative` on the spec's own example. -/
theorem storeEntries_relative_witness :
    storeEntries "/repo".data
        (["/build/out.bin".data, "/dist/pkg.tgz".data].map fun r => "/repo".data ++ r)
      = some (["/build/out.bin".data, "/dist/pkg.tgz".data].map fun r =>
          r.dropWhile fun c => c = '/') :=
  storeEntries_relative "/repo".data ["/build/out.bin".data, "/dist/pkg.tgz".data]
    (by decide) (by decide)

/-! ## Claim C8: malformed filenames -/

/-- C8 counterexample: `a_b_c_x.tar.gz` is not parseable by the filename
regex, yet a cleanup with no remaining ref tips deletes it in the orphan
sweep. -/
theorem malformed_deleted_counterexample :
    reMatch "a_b_c_x.tar.gz".data = none
    ∧ cleanup sampleEnv "".data ["a_b_c_x.tar.gz".data] 3 false
      = some ([], ["a_b_c_x.tar.gz".data]) := by decide

/-- C8 amended: an unparseable name is keyed as build id `0` and commit `''`,
and a file in the save directory that matches neither any per-commit glob
pattern nor the all-fields glob pattern is never deleted or logged by either
pruning pass (but a glob-matching malformed file can still be deleted). -/
theorem unglobbed_files_untouched (env : CIEnv) (output : List Char)
    (listing : List (List Char)) (cacheSize : Nat) (dryRun : Bool) (f : List Char)
    (hf : f ∈ listing)
    (h1 : ∀ c ∈ latestCommits output, globMatch (commitPattern c) f = false)
    (h2 : globMatch allPattern f = false) :
    (∀ a, reMatch a = none → getBuildId a = some 0 ∧ getCommitId a = [])
    ∧ ∀ r, cleanup env output listing cacheSize dryRun = some r →
        f ∈ r.1 ∧ f ∉ r.2 := by
  constructor
  · intro a ha
    simp [getBuildId, getCommitId, ha]
  · intro r h
    obtain ⟨st1, hp, hr⟩ := cleanup_eq h
    have hf1 : f ∈ st1.1 := perCommitPass_keeps_unmatched hp hf h1
    constructor
    · rw [hr]
      exact orphanSweep_keeps hf1 (Or.inr (Or.inl h2))
    · intro hlog
      rw [hr] at hlog
      rcases orphanSweep_delete_shape _ hlog with hold | ⟨_, hg, _⟩
      · rcases perCommitPass_delete_shape hp _ hold with h0 | ⟨⟨c, hc, hg⟩, _⟩
        · simp at h0
        · rw [h1 c hc] at hg; cases hg
      · rw [h2] at hg; cases hg

/-- Witness for `unglobbed_files_untouched` on a non-archive file name. -/
theorem unglobbed_files_untouched_witness :
    "notanarchive.txt".data ∈ (["notanarchive.txt".data] : List (List Char))
    ∧ "notanarchive.txt".data ∉ ([] : List (List Char)) :=
  ⟨by decide,
    ((unglobbed_files_untouched sampleEnv "cafebabe1234 refs/heads/m\n".data
        ["notanarchive.txt".data] 3 false "notanarchive.txt".data
        (by decide) (by decide) (by decide)).2
      (["notanarchive.txt".data], []) (by decide)).2⟩

/-! ## Claim C4: dry-run -/

/-- C4 counterexample: an archive that the per-commit pass deletes and whose
embedded commit is no ref tip is logged once by a real cleanup but twice by a
dry run over the same initial directory — the logged deletion sequences
differ. -/
theorem dry_run_log_counterexample :
    cleanup sampleEnv "t1aaaaaabbbb refs/heads/a\n".data
        ["a_b_t1aaaaaa_c_1.tar.gz".data] 0 false
      = some ([], ["a_b_t1aaaaaa_c_1.tar.gz".data])
    ∧ cleanup sampleEnv "t1aaaaaabbbb refs/heads/a\n".data
        ["a_b_t1aaaaaa_c_1.tar.gz".data] 0 true
      = some (["a_b_t1aaaaaa_c_1.tar.gz".data],
          ["a_b_t1aaaaaa_c_1.tar.gz".data, "a_b_t1aaaaaa_c_1.tar.gz".data])
    ∧ (["a_b_t1aaaaaa_c_1.tar.gz".data, "a_b_t1aaaaaa_c_1.tar.gz".data] : List (List Char))
      ≠ ["a_b_t1aaaaaa_c_1.tar.gz".data] := by decide

/-- C4 amended: with dry-run enabled, a full run performs zero filesystem
mutations — the save directory (existence and contents) after discovery,
store and cleanup equals the initial one, while the store step still reports
the archive name it would have produced. -/
theorem dry_run_no_mutation (env : CIEnv) (gitDir cleanOut refOut : List Char)
    (cacheSize : Nat) (sd : SaveDir) :
    store env (excavateArtifacts gitDir cleanOut) gitDir true sd
      = some (sd, currentName env)
    ∧ ∀ r, fullRun env gitDir cleanOut refOut cacheSize true sd = some r → r.1 = sd := by
  refine ⟨rfl, fun r h => ?_⟩
  simp only [fullRun, store, if_pos, bind, Option.bind] at h
  cases hc : cleanup env refOut sd.files cacheSize true with
  | none => rw [hc] at h; cases h
  | some p =>
    rw [hc] at h
    obtain ⟨st1, hp, hr⟩ := cleanup_eq hc
    have h1 : st1.1 = sd.files := perCommitPass_dry hp
    have h2 : p.1 = sd.files := by
      rw [hr, orphanSweep_dry, h1]
    cases p with
    | mk files2 log =>
      simp only [Option.some_inj] at h
      rw [← h]
      cases sd with
      | mk de fs =>
        simp only at h2
        simp [h2]

/-- Witness for `dry_run_no_mutation` on a populated save directory. -/
theorem dry_run_no_mutation_witness :
    (⟨true, ["x_y_z_1.tar.gz".data]⟩ : SaveDir) = ⟨true, ["x_y_z_1.tar.gz".data]⟩ :=
  (dry_run_no_mutation sampleEnv "/g".data "Would remove a\n".data "".data 3
      ⟨true, ["x_y_z_1.tar.gz".data]⟩).2
    (⟨true, ["x_y_z_1.tar.gz".data]⟩, ["x_y_z_1.tar.gz".data]) (by decide)

/-! ## Claim C2: the orphan sweep -/

/-- C2 counterexample: a hidden archive (leading dot) parses to a commit that
matches no ref tip and is not the current archive, yet a full cleanup keeps
it — the glob patterns never see it. -/
theorem orphan_sweep_hidden_counterexample :
    getCommitId ".p_r_x_1.tar.gz".data = "x".data
    ∧ isLatestCommit (latestCommits "deadbeefcafe refs/heads/a\n".data) "x".data = false
    ∧ ".p_r_x_1.tar.gz".data ≠ currentName sampleEnv
    ∧ cleanup sampleEnv "deadbeefcafe refs/heads/a\n".data
        [".p_r_x_1.tar.gz".data] 3 false
      = some ([".p_r_x_1.tar.gz".data], []) := by decide

/-- C2 amended: the orphan sweep deletes exactly the remaining names that
match the all-fields glob pattern, are not the current archive and whose
embedded commit is no tip's truncation; every remaining archive whose
embedded commit matches some tip's truncation is kept, as is the current
archive and every name the glob does not match. -/
theorem orphan_sweep_scope (current : List Char) (latest : List (List Char))
    (st : List (List Char) × List (List Char)) (f : List Char)
    (hnd : st.1.Nodup) (hf : f ∈ st.1) :
    (globMatch allPattern f = true → f ≠ current →
      isLatestCommit latest (getCommitId f) = false →
      f ∉ (orphanSweep current latest false st).1
        ∧ f ∈ (orphanSweep current latest false st).2)
    ∧ ((globMatch allPattern f = false ∨ isLatestCommit latest (getCommitId f) = true
        ∨ f = current) →
      f ∈ (orphanSweep current latest false st).1) := by
  constructor
  · intro hglob hne hlatest
    have hdel : f ∈ (stableSort lexLe (st.1.filter fun g => globMatch allPattern g)).filter
        fun a => a ≠ current && !isLatestCommit latest (getCommitId a) := by
      refine List.mem_filter.2 ⟨mem_stableSort.2 (List.mem_filter.2 ⟨hf, hglob⟩), ?_⟩
      simp [hne, hlatest]
    constructor
    · show f ∉ (orphanSweep current latest false st).1
      unfold orphanSweep
      simp only [if_neg Bool.false_ne_true]
      exact not_mem_removeAll hnd hdel
    · show f ∈ (orphanSweep current latest false st).2
      unfold orphanSweep
      exact List.mem_append.2 (Or.inr hdel)
  · intro hkeep
    refine orphanSweep_keeps hf ?_
    tauto

/-- Witness for `orphan_sweep_scope`: an orphaned archive is deleted and
logged while a tip-matching one is kept. -/
theorem orphan_sweep_scope_witness :
    "a_b_x_1.tar.gz".data
        ∉ (orphanSweep (currentName sampleEnv)
            (latestCommits "cafebabe1234 refs/heads/m\n".data) false
            (["a_b_x_1.tar.gz".data, "p_m_cafebabe_3.tar.gz".data], [])).1
    ∧ "a_b_x_1.tar.gz".data
        ∈ (orphanSweep (currentName sampleEnv)
            (latestCommits "cafebabe1234 refs/heads/m\n".data) false
            (["a_b_x_1.tar.gz".data, "p_m_cafebabe_3.tar.gz".data], [])).2 :=
  (orphan_sweep_scope (currentName sampleEnv)
      (latestCommits "cafebabe1234 refs/heads/m\n".data)
      (["a_b_x_1.tar.gz".data, "p_m_cafebabe_3.tar.gz".data], [])
      "a_b_x_1.tar.gz".data (by decide) (by decide)).1
    (by decide) (by decide) (by decide)

/-! ## Lemmas for the discovery scan -/

theorem dropWhile_append_of_all {p : Char → Bool} {xs : List Char} {y : Char}
    {ys : List Char} (hall : ∀ x ∈ xs, p x = true) (hy : p y = false) :
    (xs ++ y :: ys).dropWhile p = y :: ys := by
  induction xs with
  | nil => simp [List.dropWhile_cons, hy]
  | cons a as ih =>
    rw [List.cons_append, List.dropWhile_cons,
      if_pos (hall a (List.mem_cons_self a as))]
    exact ih fun x hx => hall x (List.mem_cons_of_mem a hx)

theorem takeWhile_append_of_all {p : Char → Bool} {xs : List Char} {y : Char}
    {ys : List Char} (hall : ∀ x ∈ xs, p x = true) (hy : p y = false) :
    (xs ++ y :: ys).takeWhile p = xs := by
  induction xs with
  | nil => simp [List.takeWhile_cons, hy]
  | cons a as ih =>
    rw [List.cons_append, List.takeWhile_cons,
      if_pos (hall a (List.mem_cons_self a as))]
    rw [ih fun x hx => hall x (List.mem_cons_of_mem a hx)]

theorem ciHead_extend {pat w t : List Char} (h : ciHead pat w = true) :
    ciHead pat (w ++ t) = true := by
  induction pat generalizing w with
  | nil => rfl
  | cons p ps ih =>
    cases w with
    | nil => cases h
    | cons c cs =>
      simp only [ciHead, Bool.and_eq_true] at h ⊢
      exact ⟨h.1, ih h.2⟩

theorem ciHead_newline_extend {pat u rest : List Char} (h : ciHead pat u = false)
    (hp : ∀ p ∈ pat, lowerChar p ≠ '\n') :
    ciHead pat (u ++ '\n' :: rest) = false := by
  induction pat generalizing u with
  | nil => cases h
  | cons p ps ih =>
    cases u with
    | nil =>
      show (decide (lowerChar p = lowerChar '\n') && ciHead ps rest) = false
      have hne : decide (lowerChar p = lowerChar '\n') = false := by
        simp only [decide_eq_false_iff_not]
        rw [show lowerChar '\n' = '\n' from rfl]
        exact hp p (List.mem_cons_self p ps)
      simp [hne]
    | cons c cs =>
      show (decide (lowerChar p = lowerChar c) && ciHead ps (cs ++ '\n' :: rest)) = false
      cases hd : decide (lowerChar p = lowerChar c) with
      | false => simp
      | true =>
        have h2 : ciHead ps cs = false := by
          have h' : (decide (lowerChar p = lowerChar c) && ciHead ps cs) = false := h
          rw [hd] at h'
          simpa using h'
        simp [ih h2 fun q hq => hp q (List.mem_cons_of_mem p hq)]

theorem not_space_of_lower_keyword {c : Char}
    (h : lowerChar c = 'w' ∨ lowerChar c = 'r') : isPySpace c = false := by
  by_contra hs
  rw [Bool.not_eq_false] at hs
  simp only [isPySpace, Bool.or_eq_true, decide_eq_true_eq] at hs
  rcases hs with (((((rfl | rfl) | rfl) | rfl) | rfl) | rfl) <;> revert h <;> decide

theorem not_newline_of_not_space {c : Char} (h : isPySpace c = false) : c ≠ '\n' := by
  intro he
  rw [he] at h
  cases h

/-- The scan of the empty text is empty at any fuel. -/
theorem scanPathsAux_nil : ∀ fuel, scanPathsAux fuel [] = [] := by
  intro fuel
  induction fuel with
  | zero => rfl
  | succ n ih =>
    show scanPathsAux (n + 1) [] = []
    have hm : matchWouldRemove [] = none := rfl
    simp only [scanPathsAux, hm, skipLine]
    exact ih

/-- A well-formed report line followed by terminated text matches: the raw
group is its path part and the scan resumes right after the line. -/
theorem matchWouldRemove_report {ws0 wd ws1 rm ws2 path rest : List Char}
    (h : wfLine (.report ws0 wd ws1 rm ws2 path) = true) :
    matchWouldRemove (renderLine (.report ws0 wd ws1 rm ws2 path) ++ '\n' :: rest)
      = some (path, rest) := by
  simp only [wfLine, Bool.and_eq_true, List.all_eq_true, decide_eq_true_eq,
    Bool.not_eq_true'] at h
  obtain ⟨⟨⟨⟨⟨h0, hlen5, hciw⟩, hne1, hall1⟩, hlen6, hcir⟩, hne2, hall2⟩,
    ⟨hpne, hpall⟩, hphead⟩ := h
  cases wd with
  | nil => simp at hlen5
  | cons w wtl =>
  cases rm with
  | nil => simp at hlen6
  | cons r rtl =>
  cases ws1 with
  | nil => simp at hne1
  | cons a atl =>
  cases ws2 with
  | nil => simp at hne2
  | cons b btl =>
  cases path with
  | nil => simp at hpne
  | cons p0 ptl =>
  have hwlow : lowerChar w = 'w' := by
    have h' : (decide (lowerChar 'w' = lowerChar w)
        && ciHead ['o', 'u', 'l', 'd'] wtl) = true := hciw
    simp only [Bool.and_eq_true, decide_eq_true_eq] at h'
    rw [← h'.1]
    decide
  have hrlow : lowerChar r = 'r' := by
    have h' : (decide (lowerChar 'r' = lowerChar r)
        && ciHead ['e', 'm', 'o', 'v', 'e'] rtl) = true := hcir
    simp only [Bool.and_eq_true, decide_eq_true_eq] at h'
    rw [← h'.1]
    decide
  have hwsp : isPySpace w = false := not_space_of_lower_keyword (Or.inl hwlow)
  have hrsp : isPySpace r = false := not_space_of_lower_keyword (Or.inr hrlow)
  have hp0 : isPySpace p0 = false := by simpa using hphead
  have hp0nl : p0 ≠ '\n' := not_newline_of_not_space hp0
  have hinline_space : ∀ {l : List Char}, (∀ x ∈ l, isInlineSpace x = true) →
      ∀ x ∈ l, isPySpace x = true := by
    intro l hl x hx
    have := hl x hx
    simp only [isInlineSpace, Bool.and_eq_true] at this
    exact this.1
  have hasp : isPySpace a = true :=
    hinline_space hall1 a (List.mem_cons_self a atl)
  have hpall' : ∀ x ∈ p0 :: ptl, (decide (x ≠ '\n')) = true := by
    intro x hx
    simp [hpall x hx]
  have hnlf : (decide (('\n' : Char) ≠ '\n')) = false := by decide
  -- the gap-and-path tail
  have hd1 : List.drop (btl.length + 1) ((b :: btl) ++ (p0 :: (ptl ++ '\n' :: rest)))
      = p0 :: (ptl ++ '\n' :: rest) := List.drop_left _ _
  have hgap : gapLength ((b :: btl) ++ (p0 :: (ptl ++ '\n' :: rest)))
      (btl.length + 1) = some (btl.length + 1) := by
    unfold gapLength
    rw [hd1]
    rw [if_pos ?_]
    rw [Bool.and_eq_true]
    refine ⟨?_, ?_⟩
    · simp [hp0nl]
    · refine List.elem_eq_true_of_mem ?_
      refine List.mem_cons_of_mem p0 ?_
      exact List.mem_append.2 (Or.inr (List.mem_cons_self _ _))
  have e8 : matchGapPathNl ((b :: btl) ++ (p0 :: (ptl ++ '\n' :: rest)))
      = some (p0 :: ptl, rest) := by
    unfold matchGapPathNl
    rw [takeWhile_append_of_all (hinline_space hall2) hp0]
    rw [show (b :: btl).length = btl.length + 1 from rfl]
    rw [hgap, Option.map_some', hd1]
    rw [show p0 :: (ptl ++ '\n' :: rest) = (p0 :: ptl) ++ '\n' :: rest from rfl]
    rw [takeWhile_append_of_all hpall' hnlf, dropWhile_append_of_all hpall' hnlf]
    rfl
  -- the text, right-associated
  have hs : renderLine (.report ws0 (w :: wtl) (a :: atl) (r :: rtl) (b :: btl)
        (p0 :: ptl)) ++ '\n' :: rest
      = ws0 ++ w :: (wtl ++ (a :: atl) ++ (r :: rtl) ++ (b :: btl)
          ++ (p0 :: ptl) ++ '\n' :: rest) := by
    simp [renderLine, List.append_assoc]
  rw [hs]
  simp only [matchWouldRemove]
  rw [dropWhile_append_of_all (hinline_space h0) hwsp]
  have hs1 : w :: (wtl ++ (a :: atl) ++ (r :: rtl) ++ (b :: btl)
        ++ (p0 :: ptl) ++ '\n' :: rest)
      = (w :: wtl) ++ ((a :: atl) ++ ((r :: rtl) ++ ((b :: btl)
        ++ ((p0 :: ptl) ++ '\n' :: rest)))) := by
    simp [List.append_assoc]
  rw [hs1, if_pos (ciHead_extend hciw)]
  rw [show (5 : Nat) = (w :: wtl).length from hlen5.symm, List.drop_left]
  rw [show ((a :: atl) ++ ((r :: rtl) ++ ((b :: btl)
      ++ ((p0 :: ptl) ++ '\n' :: rest)))).head? = some a from rfl]
  rw [show Option.any isPySpace (some a) = isPySpace a from rfl, if_pos hasp]
  rw [show (a :: atl) ++ ((r :: rtl) ++ ((b :: btl) ++ ((p0 :: ptl) ++ '\n' :: rest)))
      = (a :: atl) ++ (r :: (rtl ++ ((b :: btl) ++ ((p0 :: ptl) ++ '\n' :: rest))))
      from rfl]
  rw [dropWhile_append_of_all (hinline_space hall1) hrsp]
  rw [show r :: (rtl ++ ((b :: btl) ++ ((p0 :: ptl) ++ '\n' :: rest)))
      = (r :: rtl) ++ ((b :: btl) ++ ((p0 :: ptl) ++ '\n' :: rest)) from rfl]
  rw [if_pos (ciHead_extend hcir)]
  rw [show (6 : Nat) = (r :: rtl).length from hlen6.symm, List.drop_left]
  rw [show (b :: btl) ++ ((p0 :: ptl) ++ '\n' :: rest)
      = (b :: btl) ++ (p0 :: (ptl ++ '\n' :: rest)) from rfl]
  exact e8

/-- A well-formed junk line followed by terminated text does not match, and
the failed attempt skips exactly the line. -/
theorem matchWouldRemove_junk {t rest : List Char}
    (h : wfLine (.junk t) = true) :
    matchWouldRemove (renderLine (.junk t) ++ '\n' :: rest) = none
    ∧ skipLine (renderLine (.junk t) ++ '\n' :: rest) = rest := by
  simp only [wfLine, Bool.and_eq_true, List.all_eq_true, decide_eq_true_eq,
    Bool.not_eq_true'] at h
  obtain ⟨⟨hnl, hne⟩, hciw⟩ := h
  constructor
  · simp only [matchWouldRemove]
    rw [show renderLine (.junk t) = t from rfl]
    rw [List.dropWhile_append]
    rw [if_neg (by simp [hne] : ¬(List.dropWhile isPySpace t).isEmpty = true)]
    have hci2 : ciHead "would".data (List.dropWhile isPySpace t ++ '\n' :: rest)
        = false := by
      refine ciHead_newline_extend ?_ (by decide)
      exact hciw
    rw [if_neg (by simp [hci2] :
      ¬ciHead "would".data (List.dropWhile isPySpace t ++ '\n' :: rest) = true)]
  · unfold skipLine
    rw [show renderLine (.junk t) = t from rfl]
    have hall : ∀ x ∈ t, (decide (x ≠ '\n')) = true := by
      intro x hx
      simp [hnl x hx]
    rw [dropWhile_append_of_all hall (by decide)]
    rfl

/-- The scan of a rendered well-formed output collects exactly the report
paths, given enough fuel. -/
theorem scanPathsAux_render : ∀ (fuel : Nat) (ls : List CleanLine),
    (∀ l ∈ ls, wfLine l = true) → (renderOutput ls).length < fuel →
    scanPathsAux fuel (renderOutput ls) = ls.filterMap rawPath := by
  intro fuel
  induction fuel with
  | zero => intro ls _ hlen; omega
  | succ n ih =>
    intro ls hwf hlen
    cases ls with
    | nil =>
      show scanPathsAux (n + 1) [] = []
      exact scanPathsAux_nil (n + 1)
    | cons l ls' =>
      have hwl := hwf l (List.mem_cons_self l ls')
      have hwf' := fun x hx => hwf x (List.mem_cons_of_mem l hx)
      have hlen' : (renderOutput ls').length < n := by
        have : (renderOutput (l :: ls')).length
            = (renderLine l).length + 1 + (renderOutput ls').length := by
          show (renderLine l ++ '\n' :: renderOutput ls').length = _
          simp [List.length_append]
          omega
        omega
      have hstep : scanPathsAux (n + 1) (renderOutput (l :: ls'))
          = match matchWouldRemove (renderOutput (l :: ls')) with
            | some (p, rest) => p :: scanPathsAux n rest
            | none => scanPathsAux n (skipLine (renderOutput (l :: ls'))) := rfl
      cases l with
      | report ws0 wd ws1 rm ws2 path =>
        have hm := @matchWouldRemove_report ws0 wd ws1 rm ws2 path
          (renderOutput ls') hwl
        rw [hstep]
        rw [show renderOutput (.report ws0 wd ws1 rm ws2 path :: ls')
          = renderLine (.report ws0 wd ws1 rm ws2 path) ++ '\n' :: renderOutput ls'
          from rfl]
        rw [hm]
        show path :: scanPathsAux n (renderOutput ls')
          = List.filterMap rawPath (.report ws0 wd ws1 rm ws2 path :: ls')
        rw [ih ls' hwf' hlen']
        rfl
      | junk t =>
        have hm := @matchWouldRemove_junk t (renderOutput ls') hwl
        rw [hstep]
        rw [show renderOutput (.junk t :: ls')
          = renderLine (.junk t) ++ '\n' :: renderOutput ls' from rfl]
        rw [hm.1]
        show scanPathsAux n
            (skipLine (renderLine (.junk t) ++ '\n' :: renderOutput ls'))
          = List.filterMap rawPath (.junk t :: ls')
        rw [hm.2, ih ls' hwf' hlen']
        rfl

/-! ## Claim C7: artifact discovery -/

/-- C7 counterexample: the line `Would remove a` matches the case-insensitive
`would remove <path>` shape, but without a terminating newline the code
discovers nothing — the artifact list is not "one artifact per matching
line" for every output text. -/
theorem excavate_unterminated_counterexample :
    renderLine (.report [] "Would".data " ".data "remove".data " ".data "a".data)
      = "Would remove a".data
    ∧ excavateArtifacts "/repo".data "Would remove a".data = []
    ∧ excavateArtifacts "/repo".data "Would remove a\n".data
      = [pathJoin "/repo".data "a".data] := by decide

/-- C7 amended: for every output that is a newline-terminated sequence of
lines, each either a well-formed `[ws] would <ws> remove <ws> path` report
(keywords case-insensitive, gaps confined to the line, path nonempty and
starting with a non-space character) or a line not beginning with a report,
the discovered artifact list is exactly, in order, each report's stripped
path joined onto the working directory. -/
theorem excavateArtifacts_line_reports (gitDir : List Char) (ls : List CleanLine)
    (h : ∀ l ∈ ls, wfLine l = true) :
    excavateArtifacts gitDir (renderOutput ls) = ls.filterMap (reportPath gitDir) := by
  unfold excavateArtifacts scanPaths
  rw [scanPathsAux_render _ ls h (Nat.lt_succ_self _)]
  rw [List.map_filterMap]
  congr 1
  funext l
  cases l <;> rfl

/-- Witness for `excavateArtifacts_line_reports` on a junk line followed by a
report. -/
theorem excavateArtifacts_line_reports_witness :
    excavateArtifacts "/repo".data
        (renderOutput [.junk "On branch main".data,
          .report [] "Would".data " ".data "remove".data " ".data
            "build/out.bin".data])
      = [.junk "On branch main".data,
          .report [] "Would".data " ".data "remove".data " ".data
            "build/out.bin".data].filterMap (reportPath "/repo".data) :=
  excavateArtifacts_line_reports "/repo".data
    [.junk "On branch main".data,
      .report [] "Would".data " ".data "remove".data " ".data
        "build/out.bin".data] (by decide)

/-! ## Claim C1: per-commit retention -/

/-- C1 counterexample: tips `t1aaaaaa` and `t2bbbbbb`; the save directory
holds exactly two archives with embedded hash `t1aaaaaa` and distinct ids 5
and 3, with retention 1.  The id-5 archive also glob-matches `t2bbbbbb`'s
pattern and is evicted by that commit's pass, so neither survives — not the
set the claim promises. -/
theorem retention_crosstalk_counterexample :
    getCommitId "p_q_t2bbbbbb_t1aaaaaa_5.tar.gz".data = "t1aaaaaa".data
    ∧ getBuildId "p_q_t2bbbbbb_t1aaaaaa_5.tar.gz".data = some 5
    ∧ getCommitId "p_q_t1aaaaaa_3.tar.gz".data = "t1aaaaaa".data
    ∧ getBuildId "p_q_t1aaaaaa_3.tar.gz".data = some 3
    ∧ getCommitId "p_q_t2bbbbbb_9.tar.gz".data = "t2bbbbbb".data
    ∧ latestCommits "t1aaaaaa refs/heads/a\nt2bbbbbb refs/heads/b\n".data
      = ["t1aaaaaa".data, "t2bbbbbb".data]
    ∧ perCommitPass (currentName sampleEnv)
        (latestCommits "t1aaaaaa refs/heads/a\nt2bbbbbb refs/heads/b\n".data) 1 false
        (["p_q_t2bbbbbb_t1aaaaaa_5.tar.gz".data, "p_q_t1aaaaaa_3.tar.gz".data,
          "p_q_t2bbbbbb_9.tar.gz".data], [])
      = some (["p_q_t2bbbbbb_9.tar.gz".data],
          ["p_q_t1aaaaaa_3.tar.gz".data, "p_q_t2bbbbbb_t1aaaaaa_5.tar.gz".data]) := by
  decide

/-- Strict key ordering across the retention boundary of a descending
duplicate-free keyed list. -/
theorem take_drop_lt {ks : List (List Char × Nat)} {cacheSize : Nat}
    (hpw : ks.Pairwise fun a b => idDescLe a b = true)
    (hsnd : (ks.map Prod.snd).Nodup) :
    ∀ p ∈ ks.take cacheSize, ∀ q ∈ ks.drop cacheSize, q.2 < p.2 := by
  intro p hp q hq
  rw [← List.take_append_drop cacheSize ks] at hpw hsnd
  have hle : idDescLe p q = true := (List.pairwise_append.1 hpw).2.2 p hp q hq
  rw [List.map_append] at hsnd
  have hdisj := (List.nodup_append.1 hsnd).2.2
  have hne : p.2 ≠ q.2 :=
    fun he => hdisj (List.mem_map_of_mem Prod.snd hp) (he ▸ List.mem_map_of_mem Prod.snd hq)
  simp only [idDescLe, decide_eq_true_eq] at hle
  omega

/-- C1 amended: for a tip commit `c` none of whose glob matches also
glob-matches a different tip's pattern, with pairwise-distinct build ids, the
archives glob-matching `c`'s pattern that survive the per-commit pass are
exactly the first `cache_size` of the descending-id sort plus the current
archive; the retained ones carry strictly larger build ids than every evicted
position. -/
theorem perCommitPass_retention_isolated (env : CIEnv) (output : List Char)
    (listing : List (List Char)) (cacheSize : Nat) (c : List Char)
    (st' : List (List Char) × List (List Char)) (sorted : List (List Char))
    (hnd : listing.Nodup)
    (hc : c ∈ latestCommits output)
    (hpass : perCommitPass (currentName env) (latestCommits output) cacheSize false
      (listing, []) = some st')
    (hsort : sortByBuildIdDesc (listing.filter fun f => globMatch (commitPattern c) f)
      = some sorted)
    (hids : ((listing.filter fun f => globMatch (commitPattern c) f).map getBuildId).Nodup)
    (hiso : ∀ f ∈ listing, globMatch (commitPattern c) f = true →
      ∀ c' ∈ latestCommits output, globMatch (commitPattern c') f = true → c' = c) :
    (∀ f, (f ∈ st'.1 ∧ globMatch (commitPattern c) f = true)
        ↔ (f ∈ sorted.take cacheSize
          ∨ (f = currentName env ∧ f ∈ listing ∧ globMatch (commitPattern c) f = true)))
    ∧ ∀ x ∈ sorted.take cacheSize, ∀ y ∈ sorted.drop cacheSize,
        ∃ kx ky, getBuildId x = some kx ∧ getBuildId y = some ky ∧ ky < kx := by
  have hmemM : ∀ {f}, f ∈ listing.filter (fun f => globMatch (commitPattern c) f)
      ↔ f ∈ listing ∧ globMatch (commitPattern c) f = true := fun {f} => List.mem_filter
  obtain ⟨ks, hks, hsorted_def⟩ : ∃ ks,
      keyArchives (listing.filter fun f => globMatch (commitPattern c) f) = some ks
      ∧ sorted = (stableSort idDescLe ks).map Prod.fst := by
    unfold sortByBuildIdDesc at hsort
    cases hka : keyArchives (listing.filter fun f => globMatch (commitPattern c) f) with
    | none => rw [hka] at hsort; cases hsort
    | some ks =>
      rw [hka] at hsort
      simp only [Option.map_some', Option.some_inj] at hsort
      exact ⟨ks, rfl, hsort.symm⟩
  have hsorted_perm : sorted.Perm (listing.filter fun f => globMatch (commitPattern c) f) := by
    rw [hsorted_def]
    rw [← keyArchives_map_fst hks]
    exact (stableSort_perm idDescLe ks).map Prod.fst
  have hMnd : (listing.filter fun f => globMatch (commitPattern c) f).Nodup :=
    hnd.filter _
  have hsorted_nd : sorted.Nodup := hsorted_perm.nodup_iff.2 hMnd
  have hstrict : ∀ x ∈ sorted.take cacheSize, ∀ y ∈ sorted.drop cacheSize,
      ∃ kx ky, getBuildId x = some kx ∧ getBuildId y = some ky ∧ ky < kx := by
    intro x hx y hy
    rw [hsorted_def] at hx hy
    rw [← List.map_take] at hx
    rw [← List.map_drop] at hy
    obtain ⟨p, hp, rfl⟩ := List.mem_map.1 hx
    obtain ⟨q, hq, rfl⟩ := List.mem_map.1 hy
    have hpk : getBuildId p.1 = some p.2 :=
      keyArchives_mem_key hks p
        ((stableSort_perm idDescLe ks).mem_iff.1 (List.mem_of_mem_take hp))
    have hqk : getBuildId q.1 = some q.2 :=
      keyArchives_mem_key hks q
        ((stableSort_perm idDescLe ks).mem_iff.1 (List.mem_of_mem_drop hq))
    have hsnd : ((stableSort idDescLe ks).map Prod.snd).Nodup := by
      refine (((stableSort_perm idDescLe ks).map Prod.snd).nodup_iff).2 ?_
      refine List.Nodup.of_map some ?_
      rw [List.map_map]
      have : ks.map (some ∘ Prod.snd) = ks.map fun p => some p.2 := rfl
      rw [this, keyArchives_map_snd hks]
      exact hids
    exact ⟨p.2, q.2, hpk, hqk,
      take_drop_lt (stableSort_pairwise idDescLe_trans idDescLe_total ks) hsnd p hp q hq⟩
  obtain ⟨l1, l2, hsplit⟩ := List.append_of_mem hc
  have hlatest_nd : (latestCommits output).Nodup := List.nodup_dedup _
  rw [hsplit] at hpass hlatest_nd
  have hnd_parts := List.nodup_append.1 hlatest_nd
  have hcl1 : c ∉ l1 := fun hm => hnd_parts.2.2 hm (List.mem_cons_self c l2)
  have hcl2 : c ∉ l2 := (List.nodup_cons.1 hnd_parts.2.1).1
  rw [perCommitPass_append] at hpass
  cases h1 : perCommitPass (currentName env) l1 cacheSize false (listing, []) with
  | none => rw [h1] at hpass; cases hpass
  | some st1 =>
  rw [h1] at hpass
  replace hpass : perCommitPass (currentName env) (c :: l2) cacheSize false st1
      = some st' := hpass
  rw [perCommitPass_cons] at hpass
  cases h2 : perCommitStep (currentName env) cacheSize false st1 c with
  | none => rw [h2] at hpass; cases hpass
  | some st2 =>
  rw [h2] at hpass
  replace hpass : perCommitPass (currentName env) l2 cacheSize false st2
      = some st' := hpass
  have hst1_sub : st1.1.Sublist listing := perCommitPass_sublist h1
  have hst1_nd : st1.1.Nodup := List.Nodup.sublist hst1_sub hnd
  have hglob_other : ∀ {f}, f ∈ listing → globMatch (commitPattern c) f = true →
      ∀ c', c' ≠ c → c' ∈ l1 ++ c :: l2 → globMatch (commitPattern c') f = false := by
    intro f hfL hfg c' hne hmem
    by_cases hg : globMatch (commitPattern c') f = true
    · exact absurd (hiso f hfL hfg c' (hsplit ▸ hmem) hg) hne
    · exact Bool.not_eq_true _ ▸ (Bool.eq_false_iff.2 hg)
  have hMkeep1 : ∀ m ∈ listing.filter (fun f => globMatch (commitPattern c) f),
      m ∈ st1.1 := by
    intro m hm
    obtain ⟨hmL, hmg⟩ := hmemM.1 hm
    refine perCommitPass_keeps_unmatched h1 hmL (fun c' hc' => ?_)
    exact hglob_other hmL hmg c' (fun he => hcl1 (he ▸ hc'))
      (List.mem_append.2 (Or.inl hc'))
  have hFM : st1.1.filter (fun f => globMatch (commitPattern c) f)
      = listing.filter (fun f => globMatch (commitPattern c) f) :=
    sublist_eq_of_superset (List.Sublist.filter _ hst1_sub)
      (fun x hx => List.mem_filter.2 ⟨hMkeep1 x hx, (List.mem_filter.1 hx).2⟩) hMnd
  obtain ⟨sorted2, hs2, hlst2, _⟩ := perCommitStep_eq h2
  rw [hFM, hsort] at hs2
  have hss : sorted2 = sorted := (Option.some_inj.1 hs2).symm
  rw [hss] at hlst2
  have hchar2 : ∀ f ∈ listing.filter (fun f => globMatch (commitPattern c) f),
      (f ∈ st2.1 ↔ f ∈ sorted.take cacheSize ∨ f = currentName env) := by
    intro f hf
    have hf1 : f ∈ st1.1 := hMkeep1 f hf
    have hfs : f ∈ sorted := hsorted_perm.mem_iff.2 hf
    rw [hlst2, if_neg Bool.false_ne_true]
    constructor
    · intro hin
      by_cases hcur : f = currentName env
      · exact Or.inr hcur
      · left
        have hnotdel : f ∉ (sorted.drop cacheSize).filter
            (fun a => a ≠ currentName env) :=
          fun hd => not_mem_removeAll hst1_nd hd hin
        have hnotdrop : f ∉ sorted.drop cacheSize := fun hdrop =>
          hnotdel (List.mem_filter.2 ⟨hdrop, by simpa using hcur⟩)
        have := List.mem_append.1 (List.take_append_drop cacheSize sorted ▸ hfs)
        tauto
    · intro hor
      refine mem_removeAll_of_ne (fun d hd => ?_) hf1
      intro hfd
      subst hfd
      have hd1 := List.mem_filter.1 hd
      rcases hor with htake | hcur
      · have hndsplit := List.nodup_append.1
          (List.take_append_drop cacheSize sorted ▸ hsorted_nd)
        exact hndsplit.2.2 htake hd1.1
      · rw [hcur] at hd1
        simp at hd1
  have hkeep3 : ∀ f ∈ listing.filter (fun f => globMatch (commitPattern c) f),
      f ∈ st2.1 → f ∈ st'.1 := by
    intro f hf hin
    obtain ⟨hfL, hfg⟩ := hmemM.1 hf
    refine perCommitPass_keeps_unmatched hpass hin (fun c' hc' => ?_)
    exact hglob_other hfL hfg c' (fun he => hcl2 (he ▸ hc'))
      (List.mem_append.2 (Or.inr (List.mem_cons_of_mem c hc')))
  refine ⟨fun f => ?_, hstrict⟩
  constructor
  · rintro ⟨hf', hglob⟩
    have hf2 : f ∈ st2.1 := (perCommitPass_sublist hpass).subset hf'
    have hfL : f ∈ listing :=
      hst1_sub.subset ((perCommitStep_sublist h2).subset hf2)
    have hfM : f ∈ listing.filter (fun f => globMatch (commitPattern c) f) :=
      List.mem_filter.2 ⟨hfL, hglob⟩
    rcases (hchar2 f hfM).1 hf2 with htake | hcur
    · exact Or.inl htake
    · exact Or.inr ⟨hcur, hfL, hglob⟩
  · rintro (htake | ⟨hcur, hfL, hglob⟩)
    · have hfM : f ∈ listing.filter (fun f => globMatch (commitPattern c) f) :=
        hsorted_perm.mem_iff.1 (List.mem_of_mem_take htake)
      have hf2 : f ∈ st2.1 := (hchar2 f hfM).2 (Or.inl htake)
      exact ⟨hkeep3 f hfM hf2, (List.mem_filter.1 hfM).2⟩
    · have hfM : f ∈ listing.filter (fun f => globMatch (commitPattern c) f) :=
        List.mem_filter.2 ⟨hfL, hglob⟩
      have hf2 : f ∈ st2.1 := (hchar2 f hfM).2 (Or.inr hcur)
      exact ⟨hkeep3 f hfM hf2, hglob⟩

/-- Witness for `perCommitPass_retention_isolated`: one tip, three archives
with ids 9, 5, 3 and retention 1 — the id-9 archive survives, the id-5 one
does not. -/
theorem perCommitPass_retention_isolated_witness :
    ("p_q_t1aaaaaa_5.tar.gz".data
        ∈ (["p_q_t1aaaaaa_9.tar.gz".data], ["p_q_t1aaaaaa_5.tar.gz".data,
            "p_q_t1aaaaaa_3.tar.gz".data]).1
      ∧ globMatch (commitPattern "t1aaaaaabbbb".data) "p_q_t1aaaaaa_5.tar.gz".data = true)
    ↔ ("p_q_t1aaaaaa_5.tar.gz".data
        ∈ (["p_q_t1aaaaaa_9.tar.gz".data, "p_q_t1aaaaaa_5.tar.gz".data,
            "p_q_t1aaaaaa_3.tar.gz".data] : List (List Char)).take 1
      ∨ ("p_q_t1aaaaaa_5.tar.gz".data = currentName sampleEnv
        ∧ "p_q_t1aaaaaa_5.tar.gz".data
          ∈ ["p_q_t1aaaaaa_9.tar.gz".data, "p_q_t1aaaaaa_5.tar.gz".data,
              "p_q_t1aaaaaa_3.tar.gz".data]
        ∧ globMatch (commitPattern "t1aaaaaabbbb".data)
            "p_q_t1aaaaaa_5.tar.gz".data = true)) :=
  (perCommitPass_retention_isolated sampleEnv "t1aaaaaabbbb refs/heads/a\n".data
      ["p_q_t1aaaaaa_9.tar.gz".data, "p_q_t1aaaaaa_5.tar.gz".data,
        "p_q_t1aaaaaa_3.tar.gz".data] 1 "t1aaaaaabbbb".data
      (["p_q_t1aaaaaa_9.tar.gz".data], ["p_q_t1aaaaaa_5.tar.gz".data,
        "p_q_t1aaaaaa_3.tar.gz".data])
      ["p_q_t1aaaaaa_9.tar.gz".data, "p_q_t1aaaaaa_5.tar.gz".data,
        "p_q_t1aaaaaa_3.tar.gz".data]
      (by decide) (by decide) (by decide) (by decide) (by decide) (by decide)).1
    "p_q_t1aaaaaa_5.tar.gz".data

/-! ## Claim C10: retention count zero -/

/-- C10 counterexample: `p_t1aaaaaa_5.tar.gz` parses to commit `t1aaaaaa`,
the truncation of the only ref tip, yet a full retention-0 cleanup leaves it
in place although it is not the current archive — the glob patterns
(which require two fields before the hash) never see it. -/
theorem retention_zero_survivor_counterexample :
    reMatch "p_t1aaaaaa_5.tar.gz".data = some ("t1aaaaaa".data, "5".data)
    ∧ shortRef "t1aaaaaabbbb".data = "t1aaaaaa".data
    ∧ latestCommits "t1aaaaaabbbb refs/heads/a\n".data = ["t1aaaaaabbbb".data]
    ∧ "p_t1aaaaaa_5.tar.gz".data ≠ currentName sampleEnv
    ∧ cleanup sampleEnv "t1aaaaaabbbb refs/heads/a\n".data
        ["p_t1aaaaaa_5.tar.gz".data] 0 false
      = some (["p_t1aaaaaa_5.tar.gz".data], []) := by decide

/-- C10 amended: with retention count 0 (and parseable build ids), cleanup
succeeds and every archive that glob-matches some tip commit's per-commit
pattern is deleted, except the current archive: no survivor other than the
current archive glob-matches any tip's pattern. -/
theorem retention_zero_only_current (env : CIEnv) (output : List Char)
    (listing : List (List Char)) (hnd : listing.Nodup)
    (hkeys : ∀ f ∈ listing, (getBuildId f).isSome) :
    (cleanup env output listing 0 false).isSome
    ∧ ∀ r, cleanup env output listing 0 false = some r →
        ∀ f ∈ r.1, f ≠ currentName env →
          ∀ c ∈ latestCommits output, globMatch (commitPattern c) f = false := by
  constructor
  · simp only [cleanup, bind, Option.bind]
    have := @perCommitPass_isSome (currentName env) (latestCommits output) 0 false
      (listing, []) hkeys
    cases hp : perCommitPass (currentName env) (latestCommits output) 0 false
        (listing, []) with
    | none => rw [hp] at this; simp at this
    | some st1 => simp
  · intro r h f hfr hne c hc
    obtain ⟨st1, hp, hr⟩ := cleanup_eq h
    by_contra hglob
    rw [Bool.not_eq_false] at hglob
    have hout : f ∉ st1.1 := perCommitPass_zero_deletes hp hnd hc hglob hne
    have hin : f ∈ st1.1 := orphanSweep_sublist.subset (by rw [← hr]; exact hfr)
    exact hout hin

/-- Witness for `retention_zero_only_current`: a survivor other than the
current archive matches no tip pattern. -/
theorem retention_zero_only_current_witness :
    globMatch (commitPattern "cafebabe1234".data) "noarch.txt".data = false :=
  (retention_zero_only_current sampleEnv "cafebabe1234 refs/heads/m\n".data
      ["p_m_cafebabe_3.tar.gz".data, "proj_main_cafebabe_7.tar.gz".data,
        "noarch.txt".data] (by decide) (by decide)).2
    (["proj_main_cafebabe_7.tar.gz".data, "noarch.txt".data],
      ["p_m_cafebabe_3.tar.gz".data])
    (by decide) "noarch.txt".data (by decide) (by decide)
    "cafebabe1234".data (by decide)

end Excavate
